import Mathlib

/-!
Verification of the go-dotignore pattern matcher (gitignore-style path
matching).  The Go sources `dotignore.go`, `internal/util.go` and the
`RepositoryMatcher` implementation (quoted in full in `CHANGELOG.md`) are
shallowly embedded below: strings are `List Char`, the compiled
`regexp.Regexp` of a pattern becomes a list of `GlobElem` tokens whose
matching function reproduces the semantics of the regex fragments that
`BuildRegex` emits (`^`/`$` anchoring, `[^/]*`, `[^/]`, `.*`, `(.*?/)?`,
verbatim character classes, escaped literals), with Go RE2 default flags:
`.` does not match a newline while negated classes such as `[^/]` do.
-/

namespace Dotignore

/-- Path segments of a string split at every '/', mirroring Go
`strings.Split(s, "/")` (so the empty string yields one empty segment). -/
def splitSlash : List Char → List (List Char)
  | [] => [[]]
  | c :: rest =>
    if c = '/' then [] :: splitSlash rest
    else
      match splitSlash rest with
      | s :: ss => (c :: s) :: ss
      | [] => [[c]]

/-- Join segments with '/', mirroring Go `strings.Join(parts, "/")`. -/
def joinSlash : List (List Char) → List Char
  | [] => []
  | [s] => s
  | s :: t :: ts => s ++ '/' :: joinSlash (t :: ts)

/-- One alternative of a regex character class copied verbatim by
`writeCharClass`: a single character or a range. -/
inductive ClassItem where
  | single (c : Char)
  | range (lo hi : Char)
deriving DecidableEq, Repr

/-- One token of the regex that `internal.BuildRegex` builds:
`lit c` is a literal character (plain, escaped metacharacter, or `\c`),
`star` is `[^/]*`, `qmark` is `[^/]`, `anyseq` is `.*` (from `**`),
`anydirs` is `(.*?/)?` (from `**/`), and `cls` is a verbatim `[...]`
character class. -/
inductive GlobElem where
  | lit (c : Char)
  | star
  | qmark
  | anyseq
  | anydirs
  | cls (neg : Bool) (items : List ClassItem)
deriving DecidableEq, Repr

/-- Whether a character belongs to a character class alternative
(Go rune-order ranges). -/
def itemMatch (c : Char) : ClassItem → Bool
  | .single a => c = a
  | .range lo hi => lo ≤ c && c ≤ hi

/-- Whether a character matches a (possibly negated) character class.
Under Go RE2 default flags a negated class also matches a newline. -/
def clsMatch (neg : Bool) (items : List ClassItem) (c : Char) : Bool :=
  if neg then !(items.any (itemMatch c)) else items.any (itemMatch c)

/-- Split `s` at the first ']' (the scan of `writeCharClass`): the class
content before it and the remainder after it. -/
def splitAtRB : List Char → Option (List Char × List Char)
  | [] => none
  | c :: rest =>
    if c = ']' then some ([], rest)
    else (splitAtRB rest).map fun p => (c :: p.1, p.2)

theorem splitAtRB_len {s a b : List Char} (h : splitAtRB s = some (a, b)) :
    b.length < s.length := by
  induction s generalizing a b with
  | nil => simp [splitAtRB] at h
  | cons c rest ih =>
    rw [splitAtRB] at h
    by_cases hc : c = ']'
    · rw [if_pos hc] at h
      cases h
      simp
    · rw [if_neg hc] at h
      cases hs : splitAtRB rest with
      | none => rw [hs] at h; simp at h
      | some p =>
        rw [hs] at h
        simp only [Option.map_some', Option.some.injEq] at h
        have hb : b = p.2 := congrArg Prod.snd h.symm
        have := ih (a := p.1) (b := p.2) (by rw [hs])
        rw [hb]
        simp
        omega

/-- Parse the items of a character class body (after an optional leading
'^').  Mirrors Go regex class syntax for the fragment copied verbatim:
plain characters, `a-b` ranges (invalid when the upper bound is below the
lower bound, e.g. `z-a`), a trailing `-` as a literal, and `\c` escapes of
punctuation.  Perl escape classes (`\d` …) and POSIX `[:name:]` classes
are not modelled and conservatively rejected.  `fuel` bounds recursion. -/
def parseItems : Nat → List Char → Option (List ClassItem)
  | _, [] => some []
  | 0, _ :: _ => none
  | fuel + 1, s => do
    let (c1, rest) ← classChar s
    match rest with
    | '-' :: rest2 =>
      if rest2.isEmpty then
        some [ClassItem.single c1, ClassItem.single '-']
      else do
        let (c2, rest3) ← classChar rest2
        if c1 ≤ c2 then (parseItems fuel rest3).map (ClassItem.range c1 c2 :: ·)
        else none
    | _ => (parseItems fuel rest).map (ClassItem.single c1 :: ·)
where
  /-- Read one (possibly escaped) class character. -/
  classChar : List Char → Option (Char × List Char)
    | [] => none
    | '\\' :: c :: rest => if c.isAlphanum then none else some (c, rest)
    | '\\' :: [] => none
    | '[' :: ':' :: _ => none
    | c :: rest => some (c, rest)

/-- Parse a full class body: optional leading '^' negation, then at least
one item (Go rejects an empty class). -/
def parseClass (content : List Char) : Option (Bool × List ClassItem) :=
  let p := match content with
    | '^' :: t => (true, t)
    | _ => (false, content)
  match parseItems p.2.length p.2 with
  | some items => if items.isEmpty then none else some (p.1, items)
  | none => none

/-- Translation of `internal.BuildRegex`'s scan of the pattern body into
regex tokens, with an explicit recursion budget (`fuel`; one unit is
consumed per step, so the length of the string always suffices).  Each
case mirrors one `case` of the Go `switch`: `**/` emits `(.*?/)?`, other
`**` emits `.*`, `*` emits `[^/]*`, `?` emits `[^/]`, `[...]` with a
closing bracket is copied as a class (`none` when the class does not
compile, as `regexp.Compile` then fails and `BuildRegex` returns the
error), `[` without a closing bracket is the literal `\[`, `\c` escapes
`c` to a literal, a trailing `\` is a literal backslash, and every
remaining character (regex metacharacters being escaped) is a literal. -/
def parseGlobF : Nat → List Char → Option (List GlobElem)
  | _, [] => some []
  | 0, _ :: _ => none
  | fuel + 1, c :: rest =>
    if c = '*' then
      match rest with
      | c2 :: rest2 =>
        if c2 = '*' then
          match rest2 with
          | c3 :: rest3 =>
            if c3 = '/' then (parseGlobF fuel rest3).map (GlobElem.anydirs :: ·)
            else (parseGlobF fuel rest2).map (GlobElem.anyseq :: ·)
          | [] => (parseGlobF fuel rest2).map (GlobElem.anyseq :: ·)
        else (parseGlobF fuel rest).map (GlobElem.star :: ·)
      | [] => (parseGlobF fuel rest).map (GlobElem.star :: ·)
    else if c = '?' then (parseGlobF fuel rest).map (GlobElem.qmark :: ·)
    else if c = '[' then
      match splitAtRB rest with
      | some (content, after) =>
        match parseClass content with
        | some (neg, items) =>
          (parseGlobF fuel after).map (GlobElem.cls neg items :: ·)
        | none => none
      | none => (parseGlobF fuel rest).map (GlobElem.lit '[' :: ·)
    else if c = '\\' then
      match rest with
      | c2 :: rest2 => (parseGlobF fuel rest2).map (GlobElem.lit c2 :: ·)
      | [] => some [GlobElem.lit '\\']
    else (parseGlobF fuel rest).map (GlobElem.lit c :: ·)

/-- The token list of a pattern body (the compiled regex of
`internal.BuildRegex`). -/
def parseGlob (s : List Char) : Option (List GlobElem) :=
  parseGlobF s.length s

/-- Suffixes of `s` reachable by consuming a (possibly empty) run of
characters other than '/' — the ways `[^/]*` can advance. -/
def starDrops : List Char → List (List Char)
  | [] => [[]]
  | x :: xs => (x :: xs) :: (if x = '/' then [] else starDrops xs)

/-- Suffixes of `s` reachable by consuming a (possibly empty) run of
characters other than a newline — the ways `.*` can advance (Go RE2 `.`
does not match a newline under default flags). -/
def nlDrops : List Char → List (List Char)
  | [] => [[]]
  | x :: xs => (x :: xs) :: (if x = '\n' then [] else nlDrops xs)

/-- Suffixes of `s` that begin right after a '/' preceded only by
non-newline characters — the ways the non-empty alternative of `(.*?/)?`
can advance. -/
def slashJumps : List Char → List (List Char)
  | [] => []
  | x :: xs =>
    if x = '\n' then []
    else (if x = '/' then [xs] else []) ++ slashJumps xs

/-- Whole-string matching of a token list against a candidate, i.e. the
language of the regex body that `BuildRegex` wraps in `^...$`:
`star` (`[^/]*`) consumes characters other than '/', `qmark` (`[^/]`)
exactly one such character, `anyseq` (`.*`) consumes characters other
than a newline, and `anydirs` (`(.*?/)?`) optionally consumes a
newline-free prefix ending in '/'. -/
def reMatch : List GlobElem → List Char → Bool
  | [], s => s.isEmpty
  | .lit c :: es, s =>
    match s with
    | x :: xs => x = c && reMatch es xs
    | [] => false
  | .qmark :: es, s =>
    match s with
    | x :: xs => x ≠ '/' && reMatch es xs
    | [] => false
  | .cls neg items :: es, s =>
    match s with
    | x :: xs => clsMatch neg items x && reMatch es xs
    | [] => false
  | .star :: es, s => (starDrops s).any fun b => reMatch es b
  | .anyseq :: es, s => (nlDrops s).any fun b => reMatch es b
  | .anydirs :: es, s => reMatch es s || (slashJumps s).any fun b => reMatch es b

/-- A compiled ignore pattern: the processed body text, its compiled
regex (as tokens), and the flags, mirroring the Go struct
`ignorePattern`. -/
structure IgnorePattern where
  pattern : List Char
  regexToks : List GlobElem
  isDirectory : Bool
  negate : Bool
  hasWildcard : Bool
  isRootRelative : Bool
deriving DecidableEq, Repr

/-- Construction failures of `buildIgnorePatterns` (messages and line
numbers of the Go errors are not modelled): a lone `!`, an empty body
after processing, or a pattern whose generated regex does not compile
(`internal.BuildRegex` propagating a `regexp.Compile` error). -/
inductive BuildError where
  | singleBang
  | emptyPattern
  | badRegex
deriving DecidableEq, Repr

/-- Go `strings.TrimSpace`: drop whitespace from both ends. -/
def trimSpace (s : List Char) : List Char :=
  ((s.dropWhile Char.isWhitespace).reverse.dropWhile Char.isWhitespace).reverse

/-- Go `strings.ReplaceAll(s, "\\", "/")`. -/
def replaceBackslashes (s : List Char) : List Char :=
  s.map fun c => if c = '\\' then '/' else c

/-- The negation-handling step of `buildIgnorePatterns` (lines 174-188 of
`dotignore.go`): a leading `\!` escape keeps a literal `!` with
`negate = false`; otherwise a leading `!` sets `negate = true` and is
stripped, a lone `!` being an error. -/
def negationStep : List Char → Except BuildError (Bool × List Char)
  | '\\' :: '!' :: rest => .ok (false, '!' :: rest)
  | '!' :: rest =>
    if rest.isEmpty then .error .singleBang else .ok (true, rest)
  | s => .ok (false, s)

/-- Compile one processed body with its flags, mirroring the final part of
the `buildIgnorePatterns` loop: the wildcard flag is
`strings.ContainsAny(pattern, "*?")` and the regex is `BuildRegex`'s. -/
def compilePattern (body : List Char) (neg isDir isRoot : Bool) :
    Option IgnorePattern :=
  (parseGlob body).map fun toks =>
    { pattern := body
      regexToks := toks
      isDirectory := isDir
      negate := neg
      hasWildcard := body.any fun c => c = '*' || c = '?'
      isRootRelative := isRoot }

/-- Reject an empty processed body, then compile it (the last steps of
the `buildIgnorePatterns` loop body). -/
def finishPattern (neg isDir isRoot : Bool) (body : List Char) :
    Except BuildError IgnorePattern :=
  if body.isEmpty then .error .emptyPattern
  else
    match compilePattern body neg isDir isRoot with
    | some pat => .ok pat
    | none => .error .badRegex

/-- Strip a trailing '/' (directory-only marker), then finish. -/
def stripTrailingSlash (neg isRoot : Bool) (p3 : List Char) :
    Except BuildError IgnorePattern :=
  if p3.getLast? = some '/' then finishPattern neg true isRoot p3.dropLast
  else finishPattern neg false isRoot p3

/-- Strip a leading '/' (root-relative marker), then continue. -/
def stripLeadingSlash (neg : Bool) (p2 : List Char) :
    Except BuildError IgnorePattern :=
  match p2 with
  | '/' :: rest => stripTrailingSlash neg true rest
  | _ => stripTrailingSlash neg false p2

/-- Process one non-skipped trimmed line: negation handling, backslash
conversion, anchor stripping, and compilation. -/
def processBody (p : List Char) : Except BuildError IgnorePattern :=
  match negationStep p with
  | .error e => .error e
  | .ok (neg, p1) => stripLeadingSlash neg (replaceBackslashes p1)

/-- Process one line of the `buildIgnorePatterns` loop: trim, skip blank
and `#`-comment lines (`none`), then process the trimmed body. -/
def processLine (line : List Char) : Option (Except BuildError IgnorePattern) :=
  if (trimSpace line).isEmpty || (trimSpace line).head? = some '#' then none
  else some (processBody (trimSpace line))

/-- `buildIgnorePatterns`: process every line in order, failing on the
first error and otherwise collecting the compiled patterns. -/
def buildIgnorePatterns : List (List Char) → Except BuildError (List IgnorePattern)
  | [] => .ok []
  | l :: ls =>
    match processLine l with
    | none => buildIgnorePatterns ls
    | some (.error e) => .error e
    | some (.ok p) => (buildIgnorePatterns ls).map (p :: ·)

/-- Go `regexp.MatchString` semantics for the anchored regex
`^body$` that `BuildRegex` compiles: the regex matches some substring
`s[i:i+j]`, where the leading `^` requires `i = 0` (start of text) and the
trailing `$` requires `i + j = |s|` (end of text), Go RE2 treating both as
text anchors. -/
def matchStringGo (toks : List GlobElem) (s : List Char) : Bool :=
  (List.range (s.length + 1)).any fun i =>
    (List.range (s.length + 1 - i)).any fun j =>
      i == 0 && i + j == s.length && reMatch toks ((s.drop i).take j)

/-- `matchRootRelativePattern`: a root-anchored pattern matches via its
regex, or (directory pattern) the candidate equals the name or starts
with `name + "/"`, or (file pattern) equals the pattern or starts with
`pattern + "/"`. -/
def matchRootRelativePattern (file : List Char) (pat : IgnorePattern) : Bool :=
  if reMatch pat.regexToks file then true
  else if pat.isDirectory then
    file == pat.pattern || file == pat.pattern ++ ['/']
      || (pat.pattern ++ ['/']).isPrefixOf file
  else
    file == pat.pattern || (pat.pattern ++ ['/']).isPrefixOf file

/-- `matchDirectoryPattern`: the candidate equals the directory name, is
the name followed by '/' and more, or is exactly the name followed by a
final '/'. -/
def matchDirectoryPattern (file : List Char) (pat : IgnorePattern) : Bool :=
  if file == pat.pattern then true
  else if decide (pat.pattern.length < file.length)
      && (file.drop pat.pattern.length).head? == some '/'
      && file.take pat.pattern.length == pat.pattern then true
  else
    decide (file.length = pat.pattern.length + 1)
      && file.getLast? == some '/'
      && file.take pat.pattern.length == pat.pattern

/-- `matchWildcardSubpaths`: try the regex against every suffix
`parts[i:]` joined by '/', and against every `parts[:i] ++ "/" ++
parts[i:]` recombination (the Go second loop). -/
def matchWildcardSubpaths (file : List Char) (pat : IgnorePattern) : Bool :=
  let parts := splitSlash file
  ((List.range parts.length).any fun i =>
      reMatch pat.regexToks (joinSlash (parts.drop i)))
    || ((List.range parts.length).any fun i =>
      decide (0 < i)
        && reMatch pat.regexToks
            (joinSlash (parts.take i) ++ '/' :: joinSlash (parts.drop i)))

/-- Go `strings.Contains(hay, needle)`: the needle occurs as a contiguous
slice of the haystack. -/
def goContains (hay needle : List Char) : Bool :=
  hay.tails.any fun t => needle.isPrefixOf t

/-- `matchPathSeparatorPattern`: exact equality, pattern as a '/'-bounded
path prefix, pattern as a '/'-preceded path suffix, or `/pattern/` as a
bounded infix. -/
def matchPathSeparatorPattern (file : List Char) (pat : IgnorePattern) : Bool :=
  if file == pat.pattern then true
  else if decide (pat.pattern.length < file.length)
      && (file.drop pat.pattern.length).head? == some '/'
      && file.take pat.pattern.length == pat.pattern then true
  else if decide (pat.pattern.length < file.length)
      && file.drop (file.length - pat.pattern.length) == pat.pattern
      && file.get? (file.length - pat.pattern.length - 1) == some '/' then true
  else goContains file ('/' :: pat.pattern ++ ['/'])

/-- `matchSimplePattern`: test the regex against every '/'-delimited
component of the candidate. -/
def matchSimplePattern (file : List Char) (pat : IgnorePattern) : Bool :=
  (splitSlash file).any fun part => reMatch pat.regexToks part

/-- `matchPattern`: dispatch for one pattern — root-relative patterns use
only their dedicated check; otherwise try the whole-string regex, then
the directory check, then wildcard sub-paths, then the path-separator or
simple-component check.  (The Go function returns an `error` that is
always `nil`, so the embedding returns `Bool`.) -/
def matchPattern (file : List Char) (pat : IgnorePattern) : Bool :=
  if pat.isRootRelative then matchRootRelativePattern file pat
  else if reMatch pat.regexToks file then true
  else if pat.isDirectory && matchDirectoryPattern file pat then true
  else if pat.hasWildcard && matchWildcardSubpaths file pat then true
  else if pat.pattern.contains '/' then matchPathSeparatorPattern file pat
  else matchSimplePattern file pat

/-- `matchesInternal`: evaluate every pattern in declared order, the last
match (through its negate flag) determining the decision. -/
def matchesInternal (ps : List IgnorePattern) (file : List Char) : Bool :=
  ps.foldl (fun matched pat =>
    if matchPattern file pat then !pat.negate else matched) false

/-- The tracking loop of `MatchesWithTracking`: same update for the
decision, plus a flag recording whether any pattern (negation included)
matched at all. -/
def matchesInternalTracking (ps : List IgnorePattern) (file : List Char) :
    Bool × Bool :=
  ps.foldl (fun acc pat =>
    if matchPattern file pat then (!pat.negate, true) else acc)
    (false, false)

/-- Go `path/filepath.Clean` (Unix separator), segment form: '.' and
empty components vanish, ".." pops the previous component when one is
available (never past a leading ".." in a relative path, never above the
root in a rooted path).  The helper processes components onto a reversed
stack. -/
def cleanStep (rooted : Bool) (rstack : List (List Char)) (comp : List Char) :
    List (List Char) :=
  if comp = [] || comp = ['.'] then rstack
  else if comp = ['.', '.'] then
    match rstack with
    | top :: rest => if top = ['.', '.'] then comp :: top :: rest else rest
    | [] => if rooted then [] else [comp]
  else comp :: rstack

/-- Go `path/filepath.Clean` on a slash-separated path: lexically remove
'.', empty and resolvable ".." components; the empty path cleans to ".",
and a rooted path keeps its leading '/'. -/
def clean (s : List Char) : List Char :=
  let rooted := s.head? = some '/'
  let comps := splitSlash s
  let stack := (comps.foldl (cleanStep rooted) []).reverse
  if rooted then '/' :: joinSlash stack
  else if stack.isEmpty then ['.']
  else joinSlash stack

/-- Path normalization shared by `Matches` and `MatchesWithTracking`: an
empty path is not ignored (`none`), the path is cleaned, "." and "./"
resolve to not ignored (`none`), and backslashes are converted to
slashes. -/
def normalizePath (file : List Char) : Option (List Char) :=
  if file.isEmpty then none
  else
    let f := clean file
    if f = ['.'] || f = ['.', '/'] then none
    else some (replaceBackslashes f)

/-- `PatternMatcher.Matches`: normalize, then run `matchesInternal`.
(The Go method's `error` result is always `nil`.) -/
def Matches (ps : List IgnorePattern) (file : List Char) : Bool :=
  match normalizePath file with
  | none => false
  | some f => matchesInternal ps f

/-- `PatternMatcher.MatchesWithTracking`: normalize, then run the
tracking loop, returning (shouldIgnore, anyPatternMatched). -/
def MatchesWithTracking (ps : List IgnorePattern) (file : List Char) :
    Bool × Bool :=
  match normalizePath file with
  | none => (false, false)
  | some f => matchesInternalTracking ps f

/-- Go `path/filepath.IsAbs` (Unix): the path starts with '/'. -/
def isAbs (s : List Char) : Bool :=
  s.head? == some '/'

/-- Go `path/filepath.Join` for two elements: empty elements are dropped,
the rest joined with '/' and cleaned; all-empty input gives the empty
string. -/
def goJoin (a b : List Char) : List Char :=
  if a.isEmpty && b.isEmpty then []
  else if a.isEmpty then clean b
  else if b.isEmpty then clean a
  else clean (a ++ '/' :: b)

/-- Drop the longest common prefix of two segment lists (the
segment-by-segment walk of Go `filepath.Rel`). -/
def dropCommon : List (List Char) → List (List Char) →
    List (List Char) × List (List Char)
  | a :: as, b :: bs =>
    if a = b then dropCommon as bs else (a :: as, b :: bs)
  | as, bs => (as, bs)

/-- Go `path/filepath.Rel(base, targ)` (Unix): clean both, demand equal
rootedness, drop the common leading segments, refuse a base whose first
differing segment is `..`, and otherwise climb with `..` for every
remaining base segment before descending into the remaining target
segments.  A trailing empty segment (from the cleaned root "/") counts as
exhausted. -/
def goRel (base targ : List Char) : Option (List Char) :=
  let b := clean base
  let t := clean targ
  if b = t then some ['.']
  else
    let b := if b = ['.'] then [] else b
    if (isAbs b) ≠ (isAbs t) then none
    else
      let p := dropCommon (splitSlash b) (splitSlash t)
      let rb := if p.1 = [[]] then [] else p.1
      let rt := if p.2 = [[]] then [] else p.2
      if rb.head? = some ['.', '.'] then none
      else
        let r := joinSlash (rb.map (fun _ => ['.', '.']) ++ rt)
        if r.isEmpty then some ['.'] else some r

/-- The state of a built repository matcher: the absolute root directory
and the map from directory path to that directory's compiled pattern
list (Go `RepositoryMatcher`; the map is an association list). -/
structure RepositoryMatcher where
  rootDir : List Char
  matchers : List (List Char × List IgnorePattern)

/-- Lookup of `rm.matchers[dir]`. -/
def lookupMatcher (rm : RepositoryMatcher) (dir : List Char) :
    Option (List IgnorePattern) :=
  (rm.matchers.find? fun e => e.1 == dir).map (·.2)

/-- One level of the hierarchical loop in `RepositoryMatcher.Matches`:
evaluate the level's pattern set on the level's re-relativized path and
overwrite the running decision only when some pattern actually matched
(`anyPatternMatched`). -/
def repoStep (ps : List IgnorePattern) (matchPath : List Char)
    (matched : Bool) : Bool :=
  let r := MatchesWithTracking ps matchPath
  if r.2 then r.1 else matched

/-- The whole root-to-leaf loop of `RepositoryMatcher.Matches` over the
levels that have an indexed pattern set, starting from `false`. -/
def repoFold (levels : List (List IgnorePattern × List Char)) : Bool :=
  levels.foldl (fun matched l => repoStep l.1 l.2 matched) false

/-- Running `filepath.Join` chain: the current directory followed by the
chain obtained by joining each successive component. -/
def dirChain : List Char → List (List Char) → List (List Char)
  | cur, [] => [cur]
  | cur, p :: ps => cur :: dirChain (goJoin cur p) ps

/-- The chain of directories from the root down to the parent of
`relPath` (the `dirsToCheck` construction: all components of the relative
path except the last). -/
def dirsToCheck (root : List Char) (relPath : List Char) : List (List Char) :=
  dirChain root (splitSlash relPath).dropLast

/-- `RepositoryMatcher.Matches`: resolve the query to an absolute path,
reject (error) when it does not extend the root (the Go code tests
`strings.HasPrefix(absPath, rm.rootDir)`), re-relativize, then fold the
per-directory pattern sets from root to leaf, each level overwriting the
running decision only when one of its patterns matched; a level whose
re-relativization fails is skipped (the Go `continue`). -/
def repoMatches (rm : RepositoryMatcher) (path : List Char) :
    Except Unit Bool :=
  if path.isEmpty then .ok false
  else
    let absPath := if isAbs path then clean path else goJoin rm.rootDir path
    if !(rm.rootDir.isPrefixOf absPath) then .error ()
    else
      match goRel rm.rootDir absPath with
      | none => .error ()
      | some relPath =>
        let dirs := dirsToCheck rm.rootDir relPath
        let levels := dirs.filterMap fun dir =>
          (lookupMatcher rm dir).bind fun ps =>
            if dir = rm.rootDir then some (ps, relPath)
            else (goRel dir absPath).map fun r => (ps, r)
        .ok (repoFold levels)

/-! ### Basic lemmas about the string helpers -/

theorem isPrefixOf_iff_ex {l₁ l₂ : List Char} :
    l₁.isPrefixOf l₂ = true ↔ ∃ t, l₂ = l₁ ++ t := by
  induction l₁ generalizing l₂ with
  | nil => simp [List.isPrefixOf]
  | cons a as ih =>
    cases l₂ with
    | nil => simp [List.isPrefixOf]
    | cons b bs =>
      simp only [List.isPrefixOf, Bool.and_eq_true, beq_iff_eq, ih,
        List.cons_append, List.cons.injEq]
      constructor
      · rintro ⟨rfl, t, rfl⟩; exact ⟨t, rfl, rfl⟩
      · rintro ⟨t, rfl, rfl⟩; exact ⟨rfl, t, rfl⟩

theorem goContains_iff {hay nd : List Char} :
    goContains hay nd = true ↔ ∃ a b, hay = a ++ nd ++ b := by
  simp only [goContains, List.any_eq_true, List.mem_tails, isPrefixOf_iff_ex]
  constructor
  · rintro ⟨t, ⟨a, rfl⟩, b, rfl⟩
    exact ⟨a, b, by simp⟩
  · rintro ⟨a, b, rfl⟩
    exact ⟨nd ++ b, ⟨a, by simp⟩, b, rfl⟩

theorem splitSlash_ne_nil (s : List Char) : splitSlash s ≠ [] := by
  cases s with
  | nil => simp [splitSlash]
  | cons c rest =>
    rw [splitSlash]
    by_cases hc : c = '/'
    · simp [hc]
    · rw [if_neg hc]
      cases h : splitSlash rest <;> simp

theorem joinSlash_splitSlash (s : List Char) : joinSlash (splitSlash s) = s := by
  induction s with
  | nil => simp [splitSlash, joinSlash]
  | cons c rest ih =>
    rw [splitSlash]
    by_cases hc : c = '/'
    · rw [if_pos hc, hc]
      cases h : splitSlash rest with
      | nil => exact absurd h (splitSlash_ne_nil rest)
      | cons p ps =>
        rw [h] at ih
        simp [joinSlash, ih]
    · rw [if_neg hc]
      cases h : splitSlash rest with
      | nil => exact absurd h (splitSlash_ne_nil rest)
      | cons p ps =>
        rw [h] at ih
        cases ps with
        | nil => simp_all [joinSlash]
        | cons q qs => simp_all [joinSlash]

theorem mem_splitSlash_noSlash {s p : List Char} (hp : p ∈ splitSlash s) :
    ∀ c ∈ p, c ≠ '/' := by
  induction s generalizing p with
  | nil =>
    simp [splitSlash] at hp
    simp [hp]
  | cons c rest ih =>
    rw [splitSlash] at hp
    by_cases hc : c = '/'
    · rw [if_pos hc] at hp
      rcases List.mem_cons.mp hp with h | h
      · simp [h]
      · exact ih h
    · rw [if_neg hc] at hp
      cases h : splitSlash rest with
      | nil => exact absurd h (splitSlash_ne_nil rest)
      | cons q qs =>
        rw [h] at hp
        rcases List.mem_cons.mp hp with h2 | h2
        · subst h2
          intro x hx
          rcases List.mem_cons.mp hx with rfl | hx2
          · exact hc
          · exact ih (h ▸ List.mem_cons_self q qs) x hx2
        · exact ih (h ▸ List.mem_cons.mpr (Or.inr h2))

theorem mem_splitSlash_subset {s p : List Char} (hp : p ∈ splitSlash s) :
    ∀ c ∈ p, c ∈ s := by
  induction s generalizing p with
  | nil =>
    simp [splitSlash] at hp
    simp [hp]
  | cons c rest ih =>
    rw [splitSlash] at hp
    by_cases hc : c = '/'
    · rw [if_pos hc] at hp
      rcases List.mem_cons.mp hp with h | h
      · simp [h]
      · intro x hx; exact List.mem_cons.mpr (Or.inr (ih h x hx))
    · rw [if_neg hc] at hp
      cases h : splitSlash rest with
      | nil => exact absurd h (splitSlash_ne_nil rest)
      | cons q qs =>
        rw [h] at hp
        rcases List.mem_cons.mp hp with h2 | h2
        · subst h2
          intro x hx
          rcases List.mem_cons.mp hx with rfl | hx2
          · exact List.mem_cons_self _ _
          · exact List.mem_cons.mpr
              (Or.inr (ih (h ▸ List.mem_cons_self q qs) x hx2))
        · intro x hx
          exact List.mem_cons.mpr
            (Or.inr (ih (h ▸ List.mem_cons.mpr (Or.inr h2)) x hx))

theorem splitSlash_noSlash {s : List Char} (h : ∀ c ∈ s, c ≠ '/') :
    splitSlash s = [s] := by
  induction s with
  | nil => simp [splitSlash]
  | cons c rest ih =>
    rw [splitSlash, if_neg (h c (List.mem_cons_self c rest))]
    rw [ih fun x hx => h x (List.mem_cons.mpr (Or.inr hx))]

theorem splitSlash_append_slash {a x : List Char} (ha : ∀ c ∈ a, c ≠ '/') :
    splitSlash (a ++ '/' :: x) = a :: splitSlash x := by
  induction a with
  | nil => simp [splitSlash]
  | cons c cs ih =>
    have hc : c ≠ '/' := ha c (List.mem_cons_self c cs)
    rw [List.cons_append, splitSlash, if_neg hc,
      ih fun y hy => ha y (List.mem_cons.mpr (Or.inr hy))]

/-! ### Semantics of the wildcard tokens -/

theorem mem_starDrops {s b : List Char} :
    b ∈ starDrops s ↔ ∃ a, s = a ++ b ∧ ∀ c ∈ a, c ≠ '/' := by
  induction s generalizing b with
  | nil =>
    simp only [starDrops, List.mem_singleton]
    constructor
    · rintro rfl; exact ⟨[], rfl, by simp⟩
    · rintro ⟨a, ha, _⟩
      rcases List.append_eq_nil.mp ha.symm with ⟨rfl, rfl⟩; rfl
  | cons x xs ih =>
    rw [starDrops]
    by_cases hx : x = '/'
    · rw [if_pos hx]
      simp only [List.mem_singleton, List.cons_append]
      constructor
      · rintro rfl; exact ⟨[], rfl, by simp⟩
      · rintro ⟨a, ha, hno⟩
        cases a with
        | nil =>
          rw [List.nil_append] at ha
          exact ha.symm
        | cons y ys =>
          rw [List.cons_append, List.cons.injEq] at ha
          exact absurd (ha.1 ▸ hx) (hno y (List.mem_cons_self y ys))
    · rw [if_neg hx]
      simp only [List.mem_cons, ih]
      constructor
      · rintro (rfl | ⟨a, rfl, hno⟩)
        · exact ⟨[], rfl, by simp⟩
        · refine ⟨x :: a, rfl, ?_⟩
          intro c hc
          rcases List.mem_cons.mp hc with rfl | hc2
          · exact hx
          · exact hno c hc2
      · rintro ⟨a, ha, hno⟩
        cases a with
        | nil =>
          left
          rw [List.nil_append] at ha
          exact ha.symm
        | cons y ys =>
          rw [List.cons_append, List.cons.injEq] at ha
          right
          exact ⟨ys, ha.2, fun c hc => hno c (List.mem_cons.mpr (Or.inr hc))⟩

theorem mem_nlDrops {s b : List Char} :
    b ∈ nlDrops s ↔ ∃ a, s = a ++ b ∧ ∀ c ∈ a, c ≠ '\n' := by
  induction s generalizing b with
  | nil =>
    simp only [nlDrops, List.mem_singleton]
    constructor
    · rintro rfl; exact ⟨[], rfl, by simp⟩
    · rintro ⟨a, ha, _⟩
      rcases List.append_eq_nil.mp ha.symm with ⟨rfl, rfl⟩; rfl
  | cons x xs ih =>
    rw [nlDrops]
    by_cases hx : x = '\n'
    · rw [if_pos hx]
      simp only [List.mem_singleton, List.cons_append]
      constructor
      · rintro rfl; exact ⟨[], rfl, by simp⟩
      · rintro ⟨a, ha, hno⟩
        cases a with
        | nil =>
          rw [List.nil_append] at ha
          exact ha.symm
        | cons y ys =>
          rw [List.cons_append, List.cons.injEq] at ha
          exact absurd (ha.1 ▸ hx) (hno y (List.mem_cons_self y ys))
    · rw [if_neg hx]
      simp only [List.mem_cons, ih]
      constructor
      · rintro (rfl | ⟨a, rfl, hno⟩)
        · exact ⟨[], rfl, by simp⟩
        · refine ⟨x :: a, rfl, ?_⟩
          intro c hc
          rcases List.mem_cons.mp hc with rfl | hc2
          · exact hx
          · exact hno c hc2
      · rintro ⟨a, ha, hno⟩
        cases a with
        | nil =>
          left
          rw [List.nil_append] at ha
          exact ha.symm
        | cons y ys =>
          rw [List.cons_append, List.cons.injEq] at ha
          right
          exact ⟨ys, ha.2, fun c hc => hno c (List.mem_cons.mpr (Or.inr hc))⟩

theorem mem_slashJumps {s b : List Char} :
    b ∈ slashJumps s ↔ ∃ a, s = a ++ '/' :: b ∧ ∀ c ∈ a, c ≠ '\n' := by
  induction s generalizing b with
  | nil =>
    simp only [slashJumps, List.not_mem_nil, false_iff, not_exists]
    rintro a ⟨ha, _⟩
    exact absurd ha.symm (by simp)
  | cons x xs ih =>
    rw [slashJumps]
    by_cases hn : x = '\n'
    · rw [if_pos hn]
      simp only [List.not_mem_nil, false_iff, not_exists]
      rintro a ⟨ha, hno⟩
      cases a with
      | nil =>
        rw [List.nil_append, List.cons.injEq] at ha
        exact absurd (ha.1 ▸ hn) (by decide)
      | cons y ys =>
        rw [List.cons_append, List.cons.injEq] at ha
        exact absurd (ha.1 ▸ hn) (hno y (List.mem_cons_self y ys))
    · rw [if_neg hn]
      by_cases hs : x = '/'
      · rw [if_pos hs]
        simp only [List.singleton_append, List.mem_cons, ih]
        constructor
        · rintro (rfl | ⟨a, rfl, hno⟩)
          · exact ⟨[], by simp [hs], by simp⟩
          · refine ⟨x :: a, rfl, ?_⟩
            intro c hc
            rcases List.mem_cons.mp hc with rfl | hc2
            · exact hn
            · exact hno c hc2
        · rintro ⟨a, ha, hno⟩
          cases a with
          | nil =>
            left
            rw [List.nil_append, List.cons.injEq] at ha
            exact ha.2.symm
          | cons y ys =>
            rw [List.cons_append, List.cons.injEq] at ha
            right
            exact ⟨ys, ha.2, fun c hc => hno c (List.mem_cons.mpr (Or.inr hc))⟩
      · rw [if_neg hs, List.nil_append]
        rw [ih]
        constructor
        · rintro ⟨a, rfl, hno⟩
          refine ⟨x :: a, rfl, ?_⟩
          intro c hc
          rcases List.mem_cons.mp hc with rfl | hc2
          · exact hn
          · exact hno c hc2
        · rintro ⟨a, ha, hno⟩
          cases a with
          | nil =>
            rw [List.nil_append, List.cons.injEq] at ha
            exact absurd ha.1 hs
          | cons y ys =>
            rw [List.cons_append, List.cons.injEq] at ha
            exact ⟨ys, ha.2, fun c hc => hno c (List.mem_cons.mpr (Or.inr hc))⟩

theorem reMatch_star_iff {es : List GlobElem} {s : List Char} :
    reMatch (.star :: es) s = true ↔
      ∃ a b, s = a ++ b ∧ (∀ c ∈ a, c ≠ '/') ∧ reMatch es b = true := by
  rw [reMatch]
  simp only [List.any_eq_true]
  constructor
  · rintro ⟨b, hb, hm⟩
    rcases mem_starDrops.mp hb with ⟨a, rfl, hno⟩
    exact ⟨a, b, rfl, hno, hm⟩
  · rintro ⟨a, b, rfl, hno, hm⟩
    exact ⟨b, mem_starDrops.mpr ⟨a, rfl, hno⟩, hm⟩

theorem reMatch_anyseq_iff {es : List GlobElem} {s : List Char} :
    reMatch (.anyseq :: es) s = true ↔
      ∃ a b, s = a ++ b ∧ (∀ c ∈ a, c ≠ '\n') ∧ reMatch es b = true := by
  rw [reMatch]
  simp only [List.any_eq_true]
  constructor
  · rintro ⟨b, hb, hm⟩
    rcases mem_nlDrops.mp hb with ⟨a, rfl, hno⟩
    exact ⟨a, b, rfl, hno, hm⟩
  · rintro ⟨a, b, rfl, hno, hm⟩
    exact ⟨b, mem_nlDrops.mpr ⟨a, rfl, hno⟩, hm⟩

theorem reMatch_qmark_iff {es : List GlobElem} {s : List Char} :
    reMatch (.qmark :: es) s = true ↔
      ∃ c b, s = c :: b ∧ c ≠ '/' ∧ reMatch es b = true := by
  cases s with
  | nil => simp [reMatch]
  | cons x xs =>
    simp only [reMatch, Bool.and_eq_true, ne_eq, decide_not, Bool.not_eq_true',
      decide_eq_false_iff_not, List.cons.injEq]
    constructor
    · rintro ⟨hx, hm⟩; exact ⟨x, xs, ⟨rfl, rfl⟩, hx, hm⟩
    · rintro ⟨c, b, ⟨rfl, rfl⟩, hc, hm⟩; exact ⟨hc, hm⟩

theorem reMatch_anydirs_iff {es : List GlobElem} {s : List Char} :
    reMatch (.anydirs :: es) s = true ↔
      reMatch es s = true ∨
        ∃ a b, s = a ++ '/' :: b ∧ (∀ c ∈ a, c ≠ '\n') ∧
          reMatch es b = true := by
  rw [reMatch]
  simp only [Bool.or_eq_true, List.any_eq_true]
  constructor
  · rintro (h | ⟨b, hb, hm⟩)
    · exact Or.inl h
    · rcases mem_slashJumps.mp hb with ⟨a, rfl, hno⟩
      exact Or.inr ⟨a, b, rfl, hno, hm⟩
  · rintro (h | ⟨a, b, rfl, hno, hm⟩)
    · exact Or.inl h
    · exact Or.inr ⟨b, mem_slashJumps.mpr ⟨a, rfl, hno⟩, hm⟩

theorem matchStringGo_eq (toks : List GlobElem) (s : List Char) :
    matchStringGo toks s = reMatch toks s := by
  rw [Bool.eq_iff_iff]
  unfold matchStringGo
  simp only [List.any_eq_true, List.mem_range, Bool.and_eq_true, beq_iff_eq]
  constructor
  · rintro ⟨i, hi, j, hj, ⟨⟨rfl, hij⟩, hm⟩⟩
    have hjs : j = s.length := by omega
    subst hjs
    simpa using hm
  · intro hm
    exact ⟨0, by omega, s.length, by omega, ⟨rfl, by omega⟩, by simpa using hm⟩

theorem reMatch_lits {p s : List Char} :
    reMatch (p.map GlobElem.lit) s = true ↔ s = p := by
  induction p generalizing s with
  | nil => cases s <;> simp [reMatch]
  | cons c cs ih =>
    cases s with
    | nil => simp [reMatch]
    | cons x xs =>
      simp only [List.map_cons, reMatch, Bool.and_eq_true, beq_iff_eq,
        decide_eq_true_eq, ih, List.cons.injEq]

/-- Append segments each followed by '/' in front of a tail: the shape of
a candidate in which `(.*?/)?` consumed the listed whole segments. -/
def segsJoin (segs : List (List Char)) (b : List Char) : List Char :=
  segs.foldr (fun seg acc => seg ++ '/' :: acc) b

theorem segsJoin_eq_joinSlash {segs : List (List Char)} (h : segs ≠ [])
    (b : List Char) : segsJoin segs b = joinSlash segs ++ '/' :: b := by
  induction segs with
  | nil => exact absurd rfl h
  | cons s rest ih =>
    cases rest with
    | nil => simp [segsJoin, joinSlash]
    | cons t ts =>
      have := ih (by simp)
      simp only [segsJoin, List.foldr_cons] at this ⊢
      rw [this, joinSlash]
      simp [List.append_assoc]

theorem mem_joinSlash {segs : List (List Char)} {c : Char}
    (hc : c ∈ joinSlash segs) : (∃ seg ∈ segs, c ∈ seg) ∨ c = '/' := by
  induction segs with
  | nil => simp [joinSlash] at hc
  | cons s rest ih =>
    cases rest with
    | nil =>
      rw [joinSlash] at hc
      exact Or.inl ⟨s, List.mem_cons_self _ _, hc⟩
    | cons t ts =>
      rw [joinSlash] at hc
      rcases List.mem_append.mp hc with h | h
      · exact Or.inl ⟨s, List.mem_cons_self _ _, h⟩
      · rcases List.mem_cons.mp h with rfl | h2
        · exact Or.inr rfl
        · rcases ih h2 with ⟨seg, hseg, hcs⟩ | rfl
          · exact Or.inl ⟨seg, List.mem_cons.mpr (Or.inr hseg), hcs⟩
          · exact Or.inr rfl

/-- A newline-free prefix ending in '/' is exactly a non-empty list of
whole ('/'-free, newline-free) path segments each followed by '/'. -/
theorem slash_prefix_decomp {s b : List Char} :
    (∃ a, s = a ++ '/' :: b ∧ ∀ c ∈ a, c ≠ '\n') ↔
      ∃ segs, segs ≠ [] ∧
        (∀ seg ∈ segs, ∀ c ∈ seg, c ≠ '/' ∧ c ≠ '\n') ∧
        s = segsJoin segs b := by
  constructor
  · rintro ⟨a, rfl, hno⟩
    refine ⟨splitSlash a, splitSlash_ne_nil a, ?_, ?_⟩
    · intro seg hseg c hcs
      exact ⟨mem_splitSlash_noSlash hseg c hcs,
        hno c (mem_splitSlash_subset hseg c hcs)⟩
    · rw [segsJoin_eq_joinSlash (splitSlash_ne_nil a), joinSlash_splitSlash]
  · rintro ⟨segs, hne, hth, rfl⟩
    refine ⟨joinSlash segs, segsJoin_eq_joinSlash hne b, ?_⟩
    intro c hc
    rcases mem_joinSlash hc with ⟨seg, hseg, hcs⟩ | rfl
    · exact (hth seg hseg c hcs).2
    · decide

/-- Token lists made only of literals other than '/', `*` and `?` — the
shape of a compiled '/'-free pattern without `**` and without character
classes. -/
def simpleToks (toks : List GlobElem) : Bool :=
  toks.all fun e =>
    match e with
    | .lit c => c ≠ '/'
    | .star => true
    | .qmark => true
    | _ => false

theorem reMatch_simple_noSlash {toks : List GlobElem} {s : List Char}
    (hst : simpleToks toks = true) (hm : reMatch toks s = true) :
    ∀ c ∈ s, c ≠ '/' := by
  induction toks generalizing s with
  | nil =>
    cases s with
    | nil => simp
    | cons x xs => simp [reMatch] at hm
  | cons e es ih =>
    have hse : simpleToks es = true := by
      simp only [simpleToks, List.all_cons, Bool.and_eq_true] at hst
      exact hst.2
    cases e with
    | lit c =>
      cases s with
      | nil => simp [reMatch] at hm
      | cons x xs =>
        simp only [reMatch, Bool.and_eq_true, beq_iff_eq,
          decide_eq_true_eq] at hm
        intro y hy
        rcases List.mem_cons.mp hy with rfl | hy2
        · rw [hm.1]
          simp only [simpleToks, List.all_cons, Bool.and_eq_true] at hst
          simpa using hst.1
        · exact ih hse hm.2 y hy2
    | qmark =>
      cases s with
      | nil => simp [reMatch] at hm
      | cons x xs =>
        simp only [reMatch, Bool.and_eq_true, ne_eq, decide_not,
          Bool.not_eq_true', decide_eq_false_iff_not] at hm
        intro y hy
        rcases List.mem_cons.mp hy with rfl | hy2
        · exact hm.1
        · exact ih hse hm.2 y hy2
    | star =>
      rcases reMatch_star_iff.mp hm with ⟨a, b, rfl, hno, hb⟩
      intro y hy
      rcases List.mem_append.mp hy with h | h
      · exact hno y h
      · exact ih hse hb y h
    | anyseq => simp [simpleToks] at hst
    | anydirs => simp [simpleToks] at hst
    | cls neg items => simp [simpleToks] at hst

/-! ### Fuel irrelevance and structure of the glob parser -/

theorem parseGlobF_congr : ∀ (f₁ : Nat) (s : List Char) (f₂ : Nat),
    s.length ≤ f₁ → s.length ≤ f₂ → parseGlobF f₁ s = parseGlobF f₂ s := by
  intro f₁
  induction f₁ with
  | zero =>
    intro s f₂ h1 _
    have hs : s = [] := List.length_eq_zero.mp (Nat.le_zero.mp h1)
    subst hs
    cases f₂ <;> rfl
  | succ g ih =>
    intro s f₂ h1 h2
    cases s with
    | nil => cases f₂ <;> rfl
    | cons c rest =>
      cases f₂ with
      | zero => simp at h2
      | succ g₂ =>
        have hr1 : rest.length ≤ g := by simp at h1; omega
        have hr2 : rest.length ≤ g₂ := by simp at h2; omega
        simp only [parseGlobF]
        by_cases hc : c = '*'
        · rw [if_pos hc, if_pos hc]
          cases rest with
          | nil => dsimp only; rw [ih [] g₂ (by simp) (by simp)]
          | cons c2 rest2 =>
            have hq1 : rest2.length ≤ g := by simp at hr1; omega
            have hq2 : rest2.length ≤ g₂ := by simp at hr2; omega
            dsimp only
            by_cases hc2 : c2 = '*'
            · rw [if_pos hc2, if_pos hc2]
              cases rest2 with
              | nil => dsimp only; rw [ih [] g₂ (by simp) (by simp)]
              | cons c3 rest3 =>
                have hw1 : rest3.length ≤ g := by simp at hq1; omega
                have hw2 : rest3.length ≤ g₂ := by simp at hq2; omega
                dsimp only
                by_cases hc3 : c3 = '/'
                · rw [if_pos hc3, if_pos hc3, ih rest3 g₂ hw1 hw2]
                · rw [if_neg hc3, if_neg hc3,
                    ih (c3 :: rest3) g₂ hq1 hq2]
            · rw [if_neg hc2, if_neg hc2, ih (c2 :: rest2) g₂ hr1 hr2]
        · rw [if_neg hc, if_neg hc]
          by_cases hq : c = '?'
          · rw [if_pos hq, if_pos hq, ih rest g₂ hr1 hr2]
          · rw [if_neg hq, if_neg hq]
            by_cases hb : c = '['
            · rw [if_pos hb, if_pos hb]
              cases hsp : splitAtRB rest with
              | none => dsimp only; rw [ih rest g₂ hr1 hr2]
              | some p =>
                obtain ⟨content, after⟩ := p
                have hlen := splitAtRB_len hsp
                have ha1 : after.length ≤ g := by omega
                have ha2 : after.length ≤ g₂ := by omega
                dsimp only
                cases hpc : parseClass content with
                | none => rfl
                | some q => dsimp only; rw [ih after g₂ ha1 ha2]
            · rw [if_neg hb, if_neg hb]
              by_cases hbs : c = '\\'
              · rw [if_pos hbs, if_pos hbs]
                cases rest with
                | nil => rfl
                | cons c2 rest2 =>
                  have hq1 : rest2.length ≤ g := by simp at hr1; omega
                  have hq2 : rest2.length ≤ g₂ := by simp at hr2; omega
                  dsimp only
                  rw [ih rest2 g₂ hq1 hq2]
              · rw [if_neg hbs, if_neg hbs, ih rest g₂ hr1 hr2]

/-- Unfold one step of `parseGlob` through the fuel wrapper. -/
theorem parseGlob_step (f : Nat) (s : List Char) (h : s.length ≤ f) :
    parseGlobF f s = parseGlob s :=
  parseGlobF_congr f s s.length h (Nat.le_refl _)

/-- A body without '[' always compiles: every other regex fragment that
`BuildRegex` emits is valid, so `regexp.Compile` can only fail through a
verbatim character class. -/
theorem parseGlobF_isSome : ∀ (f : Nat) (s : List Char), s.length ≤ f →
    '[' ∉ s → (parseGlobF f s).isSome = true := by
  intro f
  induction f with
  | zero =>
    intro s h1 _
    have hs : s = [] := List.length_eq_zero.mp (Nat.le_zero.mp h1)
    subst hs; rfl
  | succ g ih =>
    intro s h1 hlb
    cases s with
    | nil => rfl
    | cons c rest =>
      have hr1 : rest.length ≤ g := by simp at h1; omega
      have hlbr : '[' ∉ rest := fun h => hlb (List.mem_cons.mpr (Or.inr h))
      have hcne : c ≠ '[' := fun h => hlb (List.mem_cons.mpr (Or.inl h.symm))
      simp only [parseGlobF]
      by_cases hc : c = '*'
      · rw [if_pos hc]
        cases rest with
        | nil => dsimp only; simp [parseGlobF]
        | cons c2 rest2 =>
          have hq1 : rest2.length ≤ g := by simp at hr1; omega
          have hlb2 : '[' ∉ rest2 :=
            fun h => hlbr (List.mem_cons.mpr (Or.inr h))
          dsimp only
          by_cases hc2 : c2 = '*'
          · rw [if_pos hc2]
            cases rest2 with
            | nil => dsimp only; simp [parseGlobF]
            | cons c3 rest3 =>
              have hw1 : rest3.length ≤ g := by simp at hq1; omega
              have hlb3 : '[' ∉ rest3 :=
                fun h => hlb2 (List.mem_cons.mpr (Or.inr h))
              dsimp only
              by_cases hc3 : c3 = '/'
              · rw [if_pos hc3]
                simpa using ih rest3 hw1 hlb3
              · rw [if_neg hc3]
                simpa using ih (c3 :: rest3) hq1 hlb2
          · rw [if_neg hc2]
            simpa using ih (c2 :: rest2) hr1 hlbr
      · rw [if_neg hc]
        by_cases hq : c = '?'
        · rw [if_pos hq]
          simpa using ih rest hr1 hlbr
        · rw [if_neg hq, if_neg hcne]
          by_cases hbs : c = '\\'
          · rw [if_pos hbs]
            cases rest with
            | nil => rfl
            | cons c2 rest2 =>
              have hq1 : rest2.length ≤ g := by simp at hr1; omega
              have hlb2 : '[' ∉ rest2 :=
                fun h => hlbr (List.mem_cons.mpr (Or.inr h))
              dsimp only
              simpa using ih rest2 hq1 hlb2
          · rw [if_neg hbs]
            simpa using ih rest hr1 hlbr

/-- A plain body — one without '*', '?', '[' and '\' — compiles to the
list of its characters as literals. -/
theorem parseGlobF_plain : ∀ (f : Nat) (s : List Char), s.length ≤ f →
    (∀ c ∈ s, c ≠ '*' ∧ c ≠ '?' ∧ c ≠ '[' ∧ c ≠ '\\') →
    parseGlobF f s = some (s.map GlobElem.lit) := by
  intro f
  induction f with
  | zero =>
    intro s h1 _
    have hs : s = [] := List.length_eq_zero.mp (Nat.le_zero.mp h1)
    subst hs; rfl
  | succ g ih =>
    intro s h1 hp
    cases s with
    | nil => rfl
    | cons c rest =>
      have hr1 : rest.length ≤ g := by simp at h1; omega
      have hc := hp c (List.mem_cons_self c rest)
      have hpr : ∀ x ∈ rest, x ≠ '*' ∧ x ≠ '?' ∧ x ≠ '[' ∧ x ≠ '\\' :=
        fun x hx => hp x (List.mem_cons.mpr (Or.inr hx))
      simp only [parseGlobF]
      rw [if_neg hc.1, if_neg hc.2.1, if_neg hc.2.2.1, if_neg hc.2.2.2,
        ih rest hr1 hpr]
      rfl

theorem simpleToks_cons {e : GlobElem} {es : List GlobElem} :
    simpleToks (e :: es) = true ↔
      (match e with
        | .lit c => c ≠ '/'
        | .star => True
        | .qmark => True
        | _ => False) ∧ simpleToks es = true := by
  cases e <;> simp [simpleToks]

/-- A compiled pattern whose tokens are only literals, `*` and `?` comes
from a '/'-free body: every '/' in a body would surface as a `lit '/'`,
an `anydirs` or a `cls` token. -/
theorem parseGlobF_simple_noSlash : ∀ (f : Nat) (s : List Char)
    (toks : List GlobElem), s.length ≤ f → parseGlobF f s = some toks →
    simpleToks toks = true → '/' ∉ s := by
  intro f
  induction f with
  | zero =>
    intro s toks h1 _ _
    have hs : s = [] := List.length_eq_zero.mp (Nat.le_zero.mp h1)
    subst hs; simp
  | succ g ih =>
    intro s toks h1 hp hst
    cases s with
    | nil => simp
    | cons c rest =>
      have hr1 : rest.length ≤ g := by simp at h1; omega
      simp only [parseGlobF] at hp
      by_cases hc : c = '*'
      · rw [if_pos hc] at hp
        cases rest with
        | nil =>
          simp [hc]
        | cons c2 rest2 =>
          have hq1 : rest2.length ≤ g := by simp at hr1; omega
          dsimp only at hp
          by_cases hc2 : c2 = '*'
          · rw [if_pos hc2] at hp
            cases rest2 with
            | nil =>
              rcases Option.map_eq_some'.mp hp with ⟨toks', _, rfl⟩
              rcases simpleToks_cons.mp hst with ⟨h, _⟩
              exact h.elim
            | cons c3 rest3 =>
              dsimp only at hp
              by_cases hc3 : c3 = '/'
              · rw [if_pos hc3] at hp
                rcases Option.map_eq_some'.mp hp with ⟨toks', _, rfl⟩
                rcases simpleToks_cons.mp hst with ⟨h, _⟩
                exact h.elim
              · rw [if_neg hc3] at hp
                rcases Option.map_eq_some'.mp hp with ⟨toks', _, rfl⟩
                rcases simpleToks_cons.mp hst with ⟨h, _⟩
                exact h.elim
          · rw [if_neg hc2] at hp
            rcases Option.map_eq_some'.mp hp with ⟨toks', hp', rfl⟩
            rcases simpleToks_cons.mp hst with ⟨_, hst'⟩
            have := ih (c2 :: rest2) toks' hr1 hp' hst'
            intro hmem
            rcases List.mem_cons.mp hmem with h | h
            · exact absurd (hc ▸ h.symm) (by decide)
            · exact this h
      · rw [if_neg hc] at hp
        by_cases hq : c = '?'
        · rw [if_pos hq] at hp
          rcases Option.map_eq_some'.mp hp with ⟨toks', hp', rfl⟩
          rcases simpleToks_cons.mp hst with ⟨_, hst'⟩
          have := ih rest toks' hr1 hp' hst'
          intro hmem
          rcases List.mem_cons.mp hmem with h | h
          · exact absurd (hq ▸ h.symm) (by decide)
          · exact this h
        · rw [if_neg hq] at hp
          by_cases hb : c = '['
          · rw [if_pos hb] at hp
            cases hsp : splitAtRB rest with
            | none =>
              rw [hsp] at hp
              dsimp only at hp
              rcases Option.map_eq_some'.mp hp with ⟨toks', hp', rfl⟩
              rcases simpleToks_cons.mp hst with ⟨_, hst'⟩
              have := ih rest toks' hr1 hp' hst'
              intro hmem
              rcases List.mem_cons.mp hmem with h | h
              · exact absurd (hb ▸ h.symm) (by decide)
              · exact this h
            | some p =>
              obtain ⟨content, after⟩ := p
              rw [hsp] at hp
              dsimp only at hp
              cases hpc : parseClass content with
              | none => rw [hpc] at hp; simp at hp
              | some q =>
                obtain ⟨neg, items⟩ := q
                rw [hpc] at hp
                dsimp only at hp
                rcases Option.map_eq_some'.mp hp with ⟨toks', _, rfl⟩
                rcases simpleToks_cons.mp hst with ⟨h, _⟩
                exact h.elim
          · rw [if_neg hb] at hp
            by_cases hbs : c = '\\'
            · rw [if_pos hbs] at hp
              cases rest with
              | nil =>
                intro hmem
                rcases List.mem_cons.mp hmem with h | h
                · exact absurd (hbs ▸ h.symm) (by decide)
                · simp at h
              | cons c2 rest2 =>
                have hq1 : rest2.length ≤ g := by simp at hr1; omega
                dsimp only at hp
                rcases Option.map_eq_some'.mp hp with ⟨toks', hp', rfl⟩
                rcases simpleToks_cons.mp hst with ⟨hc2, hst'⟩
                have := ih rest2 toks' hq1 hp' hst'
                intro hmem
                rcases List.mem_cons.mp hmem with h | h
                · exact absurd (hbs ▸ h.symm) (by decide)
                · rcases List.mem_cons.mp h with h2 | h2
                  · exact hc2 h2.symm
                  · exact this h2
            · rw [if_neg hbs] at hp
              rcases Option.map_eq_some'.mp hp with ⟨toks', hp', rfl⟩
              rcases simpleToks_cons.mp hst with ⟨hcne, hst'⟩
              have := ih rest toks' hr1 hp' hst'
              intro hmem
              rcases List.mem_cons.mp hmem with h | h
              · exact hcne h.symm
              · exact this h

theorem parseGlobF_nil (f : Nat) : parseGlobF f [] = some [] := by
  cases f <;> rfl

/-- A backslash-free body whose compiled tokens are only literals, `*`
and `?` matches its own text (the pattern text used by the literal string
checks of `matchDirectoryPattern` is therefore accepted by the regex). -/
theorem parseGlobF_selfMatch : ∀ (f : Nat) (s : List Char)
    (toks : List GlobElem), s.length ≤ f → parseGlobF f s = some toks →
    simpleToks toks = true → '\\' ∉ s → reMatch toks s = true := by
  intro f
  induction f with
  | zero =>
    intro s toks h1 hp _ _
    have hs : s = [] := List.length_eq_zero.mp (Nat.le_zero.mp h1)
    subst hs
    cases hp
    rfl
  | succ g ih =>
    intro s toks h1 hp hst hnb
    cases s with
    | nil => cases hp; rfl
    | cons c rest =>
      have hr1 : rest.length ≤ g := by simp at h1; omega
      have hnbr : '\\' ∉ rest := fun h => hnb (List.mem_cons.mpr (Or.inr h))
      simp only [parseGlobF] at hp
      by_cases hc : c = '*'
      · rw [if_pos hc] at hp
        subst hc
        cases rest with
        | nil =>
          dsimp only at hp
          rw [parseGlobF_nil g] at hp
          cases hp
          decide
        | cons c2 rest2 =>
          dsimp only at hp
          by_cases hc2 : c2 = '*'
          · rw [if_pos hc2] at hp
            cases rest2 with
            | nil =>
              rcases Option.map_eq_some'.mp hp with ⟨toks', _, rfl⟩
              rcases simpleToks_cons.mp hst with ⟨h, _⟩
              exact h.elim
            | cons c3 rest3 =>
              dsimp only at hp
              by_cases hc3 : c3 = '/'
              · rw [if_pos hc3] at hp
                rcases Option.map_eq_some'.mp hp with ⟨toks', _, rfl⟩
                rcases simpleToks_cons.mp hst with ⟨h, _⟩
                exact h.elim
              · rw [if_neg hc3] at hp
                rcases Option.map_eq_some'.mp hp with ⟨toks', _, rfl⟩
                rcases simpleToks_cons.mp hst with ⟨h, _⟩
                exact h.elim
          · rw [if_neg hc2] at hp
            rcases Option.map_eq_some'.mp hp with ⟨toks', hp', rfl⟩
            rcases simpleToks_cons.mp hst with ⟨_, hst'⟩
            refine reMatch_star_iff.mpr ⟨['*'], c2 :: rest2, rfl, by decide, ?_⟩
            exact ih (c2 :: rest2) toks' hr1 hp' hst' hnbr
      · rw [if_neg hc] at hp
        by_cases hq : c = '?'
        · rw [if_pos hq] at hp
          subst hq
          rcases Option.map_eq_some'.mp hp with ⟨toks', hp', rfl⟩
          rcases simpleToks_cons.mp hst with ⟨_, hst'⟩
          exact reMatch_qmark_iff.mpr ⟨'?', rest, rfl, by decide,
            ih rest toks' hr1 hp' hst' hnbr⟩
        · rw [if_neg hq] at hp
          by_cases hb : c = '['
          · rw [if_pos hb] at hp
            subst hb
            cases hsp : splitAtRB rest with
            | none =>
              rw [hsp] at hp
              dsimp only at hp
              rcases Option.map_eq_some'.mp hp with ⟨toks', hp', rfl⟩
              rcases simpleToks_cons.mp hst with ⟨_, hst'⟩
              simp only [reMatch, Bool.and_eq_true, decide_eq_true_eq]
              exact ⟨trivial, ih rest toks' hr1 hp' hst' hnbr⟩
            | some p =>
              obtain ⟨content, after⟩ := p
              rw [hsp] at hp
              dsimp only at hp
              cases hpc : parseClass content with
              | none => rw [hpc] at hp; simp at hp
              | some q =>
                obtain ⟨neg, items⟩ := q
                rw [hpc] at hp
                dsimp only at hp
                rcases Option.map_eq_some'.mp hp with ⟨toks', _, rfl⟩
                rcases simpleToks_cons.mp hst with ⟨h, _⟩
                exact h.elim
          · rw [if_neg hb] at hp
            by_cases hbs : c = '\\'
            · exact absurd (List.mem_cons.mpr (Or.inl hbs.symm)) hnb
            · rw [if_neg hbs] at hp
              rcases Option.map_eq_some'.mp hp with ⟨toks', hp', rfl⟩
              rcases simpleToks_cons.mp hst with ⟨_, hst'⟩
              simp only [reMatch, Bool.and_eq_true, decide_eq_true_eq]
              exact ⟨trivial, ih rest toks' hr1 hp' hst' hnbr⟩

/-! ### Evaluation order: last firing pattern wins -/

theorem getLast?_cons_some {l : List IgnorePattern} {q : IgnorePattern}
    (h : l.getLast? = some q) (p : IgnorePattern) :
    (p :: l).getLast? = some q := by
  cases l with
  | nil => simp at h
  | cons x xs => rw [List.getLast?_cons_cons]; exact h

theorem foldl_lastMatch (ps : List IgnorePattern) (f : List Char) :
    ∀ acc : Bool,
      ps.foldl (fun matched pat =>
        if matchPattern f pat then !pat.negate else matched) acc =
      match (ps.filter fun p => matchPattern f p).getLast? with
      | none => acc
      | some p => !p.negate := by
  induction ps with
  | nil => intro acc; rfl
  | cons p ps ih =>
    intro acc
    rw [List.foldl_cons, List.filter_cons]
    by_cases hm : matchPattern f p
    · rw [if_pos hm, if_pos (by simpa using hm), ih]
      cases hl : (ps.filter fun q => matchPattern f q).getLast? with
      | none =>
        have : ps.filter (fun q => matchPattern f q) = [] :=
          List.getLast?_eq_none_iff.mp hl
        rw [this]
        rfl
      | some q => rw [getLast?_cons_some hl p]
    · rw [if_neg hm, if_neg (by simpa using hm), ih]

/-- `matchesInternal` returns `false` when no pattern matches and
otherwise the negated negate flag of the last (in declared order)
matching pattern. -/
theorem matchesInternal_lastMatch (ps : List IgnorePattern) (f : List Char) :
    matchesInternal ps f =
      match (ps.filter fun p => matchPattern f p).getLast? with
      | none => false
      | some p => !p.negate :=
  foldl_lastMatch ps f false

/-! ### Agreement of the plain and tracking loops -/

theorem trackFold_fst (ps : List IgnorePattern) (f : List Char) :
    ∀ (m a : Bool),
      (ps.foldl (fun acc pat =>
        if matchPattern f pat then (!pat.negate, true) else acc) (m, a)).1 =
      ps.foldl (fun matched pat =>
        if matchPattern f pat then !pat.negate else matched) m := by
  induction ps with
  | nil => intro m a; rfl
  | cons p ps ih =>
    intro m a
    rw [List.foldl_cons, List.foldl_cons]
    by_cases hm : matchPattern f p
    · rw [if_pos hm, if_pos hm, ih]
    · rw [if_neg hm, if_neg hm, ih]

theorem trackFold_snd_mono (ps : List IgnorePattern) (f : List Char) :
    ∀ (m : Bool),
      (ps.foldl (fun acc pat =>
        if matchPattern f pat then (!pat.negate, true) else acc)
        (m, true)).2 = true := by
  induction ps with
  | nil => intro m; rfl
  | cons p ps ih =>
    intro m
    rw [List.foldl_cons]
    by_cases hm : matchPattern f p
    · rw [if_pos hm]; exact ih _
    · rw [if_neg hm]; exact ih _

theorem trackFold_silent (ps : List IgnorePattern) (f : List Char) :
    ∀ (m a : Bool),
      (ps.foldl (fun acc pat =>
        if matchPattern f pat then (!pat.negate, true) else acc)
        (m, a)).2 = false →
      (ps.foldl (fun acc pat =>
        if matchPattern f pat then (!pat.negate, true) else acc)
        (m, a)).1 = m := by
  induction ps with
  | nil => intro m a _; rfl
  | cons p ps ih =>
    intro m a h
    rw [List.foldl_cons] at h ⊢
    by_cases hm : matchPattern f p
    · rw [if_pos hm] at h ⊢
      exact absurd h (by rw [trackFold_snd_mono]; simp)
    · rw [if_neg hm] at h ⊢
      exact ih m a h

theorem matchesInternalTracking_spec (ps : List IgnorePattern)
    (g : List Char) :
    (matchesInternalTracking ps g).1 = matchesInternal ps g ∧
    ((matchesInternalTracking ps g).2 = false →
      (matchesInternalTracking ps g).1 = false) := by
  unfold matchesInternalTracking matchesInternal
  exact ⟨trackFold_fst ps g false false, trackFold_silent ps g false false⟩

/-- Build a pattern set from lines and evaluate `Matches` on a path. -/
def buildAndMatch (lines : List (List Char)) (f : List Char) :
    Except BuildError Bool :=
  (buildIgnorePatterns lines).map fun ps => Matches ps f

/-! ### Claim theorems -/

/-- C1: for every pattern list and candidate path, the evaluation loop of
`Matches` returns `false` when no pattern matches and otherwise the
negation of the negate flag of the last pattern (in declared order) that
matches; in particular `["*.log", "!important.log"]` ignores `app.log`
and does not ignore `important.log`. -/
theorem claim_C1 :
    (∀ (ps : List IgnorePattern) (f : List Char),
      matchesInternal ps f =
        match (ps.filter fun p => matchPattern f p).getLast? with
        | none => false
        | some p => !p.negate) ∧
    buildAndMatch ["*.log".data, "!important.log".data] "app.log".data =
      .ok true ∧
    buildAndMatch ["*.log".data, "!important.log".data] "important.log".data =
      .ok false :=
  ⟨matchesInternal_lastMatch, by rfl, by rfl⟩

/-- C10: for every pattern list and input path, `Matches` agrees with the
first component of `MatchesWithTracking`, and whenever the ignore result
is `true` the `anyPatternMatched` component is `true` as well. -/
theorem claim_C10 :
    ∀ (ps : List IgnorePattern) (f : List Char),
      Matches ps f = (MatchesWithTracking ps f).1 ∧
      (!(MatchesWithTracking ps f).1 || (MatchesWithTracking ps f).2) =
        true := by
  intro ps f
  rw [Matches, MatchesWithTracking]
  cases hn : normalizePath f with
  | none => exact ⟨rfl, rfl⟩
  | some g =>
    dsimp only
    refine ⟨(matchesInternalTracking_spec ps g).1.symm, ?_⟩
    cases h2 : (matchesInternalTracking ps g).2 with
    | true => simp
    | false =>
      rw [(matchesInternalTracking_spec ps g).2 h2]
      rfl

theorem reMatch_anydirs_segs {es : List GlobElem} {s : List Char} :
    reMatch (.anydirs :: es) s = true ↔
      ∃ segs b, (∀ seg ∈ segs, ∀ c ∈ seg, c ≠ '/' ∧ c ≠ '\n') ∧
        s = segsJoin segs b ∧ reMatch es b = true := by
  rw [reMatch_anydirs_iff]
  constructor
  · rintro (h | ⟨a, b, rfl, hno, hb⟩)
    · exact ⟨[], s, by simp, rfl, h⟩
    · rcases slash_prefix_decomp.mp ⟨a, rfl, hno⟩ with ⟨segs, hne, hth, hs⟩
      exact ⟨segs, b, hth, hs, hb⟩
  · rintro ⟨segs, b, hth, rfl, hb⟩
    cases hsegs : segs with
    | nil => exact Or.inl (by simpa [segsJoin] using hb)
    | cons t ts =>
      subst hsegs
      rcases slash_prefix_decomp.mpr ⟨t :: ts, by simp, hth, rfl⟩ with
        ⟨a, ha, hno⟩
      exact Or.inr ⟨a, b, ha, hno, hb⟩

/-- C9 (amended): the compiled predicate is anchored — Go `MatchString`
of the `^...$` regex agrees with whole-string matching, so no proper
substring match is ever reported — and the wildcard semantics are: `**/`
matches zero or more whole newline-free path segments, a bare `**`
matches any newline-free character sequence (including '/'), `*` matches
any run of characters excluding '/', and `?` matches exactly one
character excluding '/'.  (Newline is excluded by the `**` forms because
Go RE2 `.` does not match a newline under default flags.) -/
theorem claim_C9 :
    (∀ (toks : List GlobElem) (s : List Char),
      matchStringGo toks s = reMatch toks s) ∧
    (∀ (es : List GlobElem) (s : List Char),
      reMatch (.anydirs :: es) s = true ↔
        ∃ segs b, (∀ seg ∈ segs, ∀ c ∈ seg, c ≠ '/' ∧ c ≠ '\n') ∧
          s = segsJoin segs b ∧ reMatch es b = true) ∧
    (∀ (es : List GlobElem) (s : List Char),
      reMatch (.anyseq :: es) s = true ↔
        ∃ a b, s = a ++ b ∧ (∀ c ∈ a, c ≠ '\n') ∧ reMatch es b = true) ∧
    (∀ (es : List GlobElem) (s : List Char),
      reMatch (.star :: es) s = true ↔
        ∃ a b, s = a ++ b ∧ (∀ c ∈ a, c ≠ '/') ∧ reMatch es b = true) ∧
    (∀ (es : List GlobElem) (s : List Char),
      reMatch (.qmark :: es) s = true ↔
        ∃ c b, s = c :: b ∧ c ≠ '/' ∧ reMatch es b = true) :=
  ⟨matchStringGo_eq,
   fun _ _ => reMatch_anydirs_segs,
   fun _ _ => reMatch_anyseq_iff,
   fun _ _ => reMatch_star_iff,
   fun _ _ => reMatch_qmark_iff⟩

/-- C9 counterexample: the pattern body `**` compiles to the regex `.*`,
whose predicate does not accept the one-character candidate consisting of
a newline — so a bare `**` does not match every character sequence, as
the claim states. -/
theorem claim_C9_cex :
    parseGlob "**".data = some [GlobElem.anyseq] ∧
    matchStringGo [GlobElem.anyseq] "\n".data = false := by decide

/-- C8: during compilation, a line starting with `!` gets `negate = true`
with the `!` stripped; a line starting with the two-character escape `\!`
gets only the backslash stripped, keeps the literal `!` and gets
`negate = false`; a line that is a lone `!` after trimming is a fatal
configuration error; and the set `["\!keep.txt"]` ignores `!keep.txt`
while not ignoring `keep.txt`. -/
theorem claim_C8 :
    (∀ t : List Char,
      negationStep ('\\' :: '!' :: t) = .ok (false, '!' :: t)) ∧
    (∀ (c : Char) (t : List Char),
      negationStep ('!' :: c :: t) = .ok (true, c :: t)) ∧
    negationStep ['!'] = .error .singleBang ∧
    (∀ l : List Char, trimSpace l = ['!'] →
      buildIgnorePatterns [l] = .error .singleBang) ∧
    buildAndMatch ["\\!keep.txt".data] "!keep.txt".data = .ok true ∧
    buildAndMatch ["\\!keep.txt".data] "keep.txt".data = .ok false := by
  refine ⟨fun t => rfl, fun c t => rfl, rfl, ?_, by rfl, by rfl⟩
  intro l hl
  have hp : processLine l = some (Except.error BuildError.singleBang) := by
    rw [processLine, hl]
    rfl
  rw [buildIgnorePatterns, hp]

/-- C8 witness: the theorem applied to a line that trims to a lone
exclamation mark. -/
theorem claim_C8_witness :
    buildIgnorePatterns [" !".data] = .error .singleBang :=
  claim_C8.2.2.2.1 " !".data (by decide)

/-! ### Only character classes can make compilation fail -/

theorem mem_trimSpace_subset {s : List Char} {c : Char}
    (h : c ∈ trimSpace s) : c ∈ s := by
  unfold trimSpace at h
  rw [List.mem_reverse] at h
  have h2 := (List.dropWhile_sublist _).mem h
  rw [List.mem_reverse] at h2
  exact (List.dropWhile_sublist _).mem h2

theorem negationStep_noLB {p p1 : List Char} {neg : Bool}
    (hlb : '[' ∉ p) (h : negationStep p = .ok (neg, p1)) : '[' ∉ p1 := by
  unfold negationStep at h
  split at h
  · next rest =>
    cases h
    intro hm
    rcases List.mem_cons.mp hm with h1 | h1
    · exact absurd h1 (by decide)
    · exact hlb (List.mem_cons.mpr (Or.inr (List.mem_cons.mpr (Or.inr h1))))
  · next rest =>
    split at h
    · simp at h
    · cases h
      intro hm
      exact hlb (List.mem_cons.mpr (Or.inr hm))
  · cases h
    exact hlb

theorem replaceBackslashes_noLB {s : List Char} (h : '[' ∉ s) :
    '[' ∉ replaceBackslashes s := by
  unfold replaceBackslashes
  intro hmem
  rcases List.mem_map.mp hmem with ⟨c, hc, he⟩
  by_cases hb : c = '\\'
  · rw [if_pos hb] at he; exact absurd he (by decide)
  · rw [if_neg hb] at he; exact h (he ▸ hc)

theorem negationStep_error {p : List Char} {e : BuildError}
    (h : negationStep p = .error e) : e = .singleBang := by
  unfold negationStep at h
  split at h
  · simp at h
  · split at h
    · injection h with h2
      exact h2.symm
    · simp at h
  · simp at h

theorem compilePattern_isSome {body : List Char} (hlb : '[' ∉ body)
    (neg isDir isRoot : Bool) :
    (compilePattern body neg isDir isRoot).isSome = true := by
  have h := parseGlobF_isSome body.length body (Nat.le_refl _) hlb
  unfold compilePattern
  cases hp : parseGlob body with
  | none =>
    rw [parseGlob] at hp
    rw [hp] at h
    simp at h
  | some t => rfl

/-- A line without '[' can only be skipped, compiled, or rejected with one
of the two configuration errors — never with a regex-compilation error. -/
theorem finishPattern_ne_badRegex {body : List Char} (hlb : '[' ∉ body)
    (neg isDir isRoot : Bool) :
    finishPattern neg isDir isRoot body ≠ .error .badRegex := by
  intro h
  unfold finishPattern at h
  split at h
  · simp at h
  · split at h
    · simp at h
    · next heq =>
      have := compilePattern_isSome hlb neg isDir isRoot
      rw [heq] at this
      simp at this

theorem stripTrailingSlash_ne_badRegex {p3 : List Char} (hlb : '[' ∉ p3)
    (neg isRoot : Bool) :
    stripTrailingSlash neg isRoot p3 ≠ .error .badRegex := by
  unfold stripTrailingSlash
  split
  · refine finishPattern_ne_badRegex ?_ neg true isRoot
    intro hm
    rw [List.dropLast_eq_take] at hm
    exact hlb ((List.take_sublist _ _).mem hm)
  · exact finishPattern_ne_badRegex hlb neg false isRoot

theorem stripLeadingSlash_ne_badRegex {p2 : List Char} (hlb : '[' ∉ p2)
    (neg : Bool) :
    stripLeadingSlash neg p2 ≠ .error .badRegex := by
  unfold stripLeadingSlash
  split
  · next rest =>
    refine stripTrailingSlash_ne_badRegex ?_ neg true
    intro hm
    exact hlb (List.mem_cons.mpr (Or.inr hm))
  · exact stripTrailingSlash_ne_badRegex hlb neg false

theorem processBody_ne_badRegex {p : List Char} (hlb : '[' ∉ p) :
    processBody p ≠ .error .badRegex := by
  unfold processBody
  split
  · next e heq =>
    intro h
    injection h with h2
    rw [h2] at heq
    exact absurd (negationStep_error heq) (by decide)
  · next neg p1 heq =>
    exact stripLeadingSlash_ne_badRegex
      (replaceBackslashes_noLB (negationStep_noLB hlb heq)) neg

theorem processLine_ne_badRegex {l : List Char} (hlb : '[' ∉ l) :
    processLine l ≠ some (.error .badRegex) := by
  intro h
  unfold processLine at h
  split at h
  · simp at h
  · rw [Option.some_inj] at h
    exact processBody_ne_badRegex
      (fun hm => hlb (mem_trimSpace_subset hm)) h

/-- C5 (amended): besides the two configuration errors — a lone `!` and
an empty body after processing — `buildIgnorePatterns` has a third
failure mode: a pattern whose verbatim-copied character class does not
compile (e.g. `[z-a]`).  For every line list whose lines contain no `[`,
a failure can only be one of the two configuration errors. -/
theorem claim_C5 :
    ∀ lines : List (List Char), (∀ l ∈ lines, '[' ∉ l) →
      ∀ e, buildIgnorePatterns lines = .error e →
        e = .singleBang ∨ e = .emptyPattern := by
  intro lines
  induction lines with
  | nil =>
    intro _ e he
    simp [buildIgnorePatterns] at he
  | cons l ls ih =>
    intro hlb e he
    have hlbl : '[' ∉ l := hlb l (List.mem_cons_self l ls)
    have hlbs : ∀ x ∈ ls, '[' ∉ x :=
      fun x hx => hlb x (List.mem_cons.mpr (Or.inr hx))
    rw [buildIgnorePatterns] at he
    cases hp : processLine l with
    | none =>
      rw [hp] at he
      exact ih hlbs e he
    | some r =>
      cases r with
      | error e2 =>
        rw [hp] at he
        injection he with h2
        subst h2
        cases e2 with
        | singleBang => exact Or.inl rfl
        | emptyPattern => exact Or.inr rfl
        | badRegex => exact absurd hp (processLine_ne_badRegex hlbl)
      | ok p =>
        rw [hp] at he
        cases hb : buildIgnorePatterns ls with
        | error e3 =>
          rw [hb] at he
          simp only [Except.map] at he
          injection he with h2
          subst h2
          exact ih hlbs e3 hb
        | ok ps =>
          rw [hb] at he
          simp [Except.map] at he

/-- C5 witness: the theorem applied to the '['-free line list
`["!"]`, whose build fails with the lone-`!` configuration error. -/
theorem claim_C5_witness :
    BuildError.singleBang = BuildError.singleBang ∨
      BuildError.singleBang = BuildError.emptyPattern :=
  claim_C5 ["!".data] (by decide) BuildError.singleBang (by rfl)

/-- C5 counterexample: the line `[z-a]` passes the negation and
empty-body checks yet `NewPatternMatcher` fails on it, because the
character class `[z-a]` (an inverted range) does not compile — a third
failure mode beyond the two configuration errors the claim admits. -/
theorem claim_C5_cex :
    buildIgnorePatterns ["[z-a]".data] = .error .badRegex := by rfl

/-! ### Boundary characterizations of the literal path checks -/

theorem prefixCheck_iff {f p : List Char} :
    (decide (p.length < f.length) && (f.drop p.length).head? == some '/'
      && f.take p.length == p) = true ↔ ∃ x, f = p ++ '/' :: x := by
  simp only [Bool.and_eq_true, decide_eq_true_eq, beq_iff_eq]
  constructor
  · rintro ⟨⟨_, hh⟩, ht⟩
    cases hd : f.drop p.length with
    | nil => rw [hd] at hh; simp at hh
    | cons c xs =>
      rw [hd] at hh
      injection hh with hh2
      refine ⟨xs, ?_⟩
      conv_lhs => rw [← List.take_append_drop p.length f]
      rw [ht, hd, hh2]
  · rintro ⟨x, rfl⟩
    refine ⟨⟨by simp, ?_⟩, ?_⟩
    · rw [List.drop_left]; rfl
    · rw [List.take_left]

theorem suffixCheck_iff {f p : List Char} :
    (decide (p.length < f.length)
      && f.drop (f.length - p.length) == p
      && f.get? (f.length - p.length - 1) == some '/') = true ↔
    ∃ y, f = y ++ '/' :: p := by
  simp only [Bool.and_eq_true, decide_eq_true_eq, beq_iff_eq]
  constructor
  · rintro ⟨⟨hl, hd⟩, hg⟩
    have hk : 1 ≤ f.length - p.length := by omega
    cases hdd : f.drop (f.length - p.length - 1) with
    | nil =>
      rw [List.drop_eq_nil_iff] at hdd
      omega
    | cons c rest =>
      have hc : c = '/' := by
        have := List.head?_drop f (f.length - p.length - 1)
        rw [hdd] at this
        rw [← List.get?_eq_getElem?] at this
        rw [hg] at this
        exact Option.some.inj this
      have hrest : rest = p := by
        have h1 : f.drop (f.length - p.length) =
            (f.drop (f.length - p.length - 1)).drop 1 := by
          rw [List.drop_drop]
          congr 1
          omega
        rw [hdd] at h1
        simp at h1
        rw [← h1, hd]
      refine ⟨f.take (f.length - p.length - 1), ?_⟩
      conv_lhs => rw [← List.take_append_drop (f.length - p.length - 1) f]
      rw [hdd, hc, hrest]
  · rintro ⟨y, rfl⟩
    have hlen : (y ++ '/' :: p).length - p.length = y.length + 1 := by
      simp
      omega
    refine ⟨⟨by simp; omega, ?_⟩, ?_⟩
    · rw [hlen]
      have : (y ++ '/' :: p).drop (y.length + 1) =
          ((y ++ '/' :: p).drop y.length).drop 1 := by
        rw [List.drop_drop, Nat.add_comm]
      rw [this, List.drop_left]
      rfl
    · rw [hlen]
      have h2 : y.length + 1 - 1 = y.length := rfl
      rw [h2, List.get?_eq_getElem?]
      rw [← List.head?_drop, List.drop_left]
      rfl

theorem infixCheck_iff {f p : List Char} :
    goContains f ('/' :: p ++ ['/']) = true ↔
      ∃ y x, f = y ++ '/' :: p ++ '/' :: x := by
  rw [goContains_iff]
  constructor
  · rintro ⟨a, b, rfl⟩
    exact ⟨a, b, by simp⟩
  · rintro ⟨y, x, rfl⟩
    exact ⟨y, x, by simp⟩

/-- The third check of `matchDirectoryPattern` pins the candidate to the
directory name followed by a final '/'. -/
theorem lastCheck_eq {f p : List Char}
    (h : (decide (f.length = p.length + 1) && f.getLast? == some '/'
      && f.take p.length == p) = true) : f = p ++ ['/'] := by
  simp only [Bool.and_eq_true, decide_eq_true_eq, beq_iff_eq] at h
  obtain ⟨⟨hl, hg⟩, ht⟩ := h
  have hd : (f.drop p.length).length = 1 := by
    rw [List.length_drop]
    omega
  rcases List.length_eq_one.mp hd with ⟨c, hc⟩
  have hf : f = p ++ [c] := by
    conv_lhs => rw [← List.take_append_drop p.length f]
    rw [ht, hc]
  have : c = '/' := by
    rw [hf, List.getLast?_concat] at hg
    exact Option.some.inj hg
  rw [hf, this]

theorem matchDirectoryPattern_iff {f : List Char} {pat : IgnorePattern} :
    matchDirectoryPattern f pat = true ↔
      f = pat.pattern ∨ ∃ x, f = pat.pattern ++ '/' :: x := by
  unfold matchDirectoryPattern
  by_cases h1 : (f == pat.pattern) = true
  · rw [if_pos h1]
    simp only [beq_iff_eq] at h1
    simp [h1]
  · rw [if_neg h1]
    by_cases h2 : (decide (pat.pattern.length < f.length)
        && (f.drop pat.pattern.length).head? == some '/'
        && f.take pat.pattern.length == pat.pattern) = true
    · rw [if_pos h2]
      simp only [true_iff]
      exact Or.inr (prefixCheck_iff.mp h2)
    · rw [if_neg h2]
      constructor
      · intro h3
        refine Or.inr ⟨[], ?_⟩
        have := lastCheck_eq h3
        simpa using this
      · rintro (h | ⟨x, rfl⟩)
        · exact absurd (by simp [h]) h1
        · exact absurd (prefixCheck_iff.mpr ⟨x, rfl⟩) h2

theorem matchPathSeparatorPattern_iff {f : List Char} {pat : IgnorePattern} :
    matchPathSeparatorPattern f pat = true ↔
      f = pat.pattern ∨ (∃ x, f = pat.pattern ++ '/' :: x) ∨
      (∃ y, f = y ++ '/' :: pat.pattern) ∨
      (∃ y x, f = y ++ '/' :: pat.pattern ++ '/' :: x) := by
  unfold matchPathSeparatorPattern
  by_cases h1 : (f == pat.pattern) = true
  · rw [if_pos h1]
    simp only [beq_iff_eq] at h1
    simp [h1]
  · rw [if_neg h1]
    by_cases h2 : (decide (pat.pattern.length < f.length)
        && (f.drop pat.pattern.length).head? == some '/'
        && f.take pat.pattern.length == pat.pattern) = true
    · rw [if_pos h2]
      simp only [true_iff]
      exact Or.inr (Or.inl (prefixCheck_iff.mp h2))
    · rw [if_neg h2]
      by_cases h3 : (decide (pat.pattern.length < f.length)
          && f.drop (f.length - pat.pattern.length) == pat.pattern
          && f.get? (f.length - pat.pattern.length - 1) == some '/') = true
      · rw [if_pos h3]
        simp only [true_iff]
        exact Or.inr (Or.inr (Or.inl (suffixCheck_iff.mp h3)))
      · rw [if_neg h3]
        rw [infixCheck_iff]
        constructor
        · intro h
          exact Or.inr (Or.inr (Or.inr h))
        · rintro (h | h | h | h)
          · exact absurd (by simp [h]) h1
          · exact absurd (prefixCheck_iff.mpr h) h2
          · exact absurd (suffixCheck_iff.mpr h) h3
          · exact h

theorem matchRootRelativePattern_lits_iff {f body : List Char}
    {pat : IgnorePattern} (hp : pat.pattern = body)
    (ht : pat.regexToks = body.map GlobElem.lit) :
    matchRootRelativePattern f pat = true ↔
      f = body ∨ ∃ x, f = body ++ '/' :: x := by
  unfold matchRootRelativePattern
  rw [ht, hp]
  by_cases hre : reMatch (body.map GlobElem.lit) f = true
  · rw [if_pos hre]
    simp only [true_iff]
    exact Or.inl (reMatch_lits.mp hre)
  · rw [if_neg hre]
    have hne : ¬ f = body := fun h => hre (reMatch_lits.mpr h)
    by_cases hd : pat.isDirectory
    · rw [if_pos hd]
      simp only [Bool.or_eq_true, beq_iff_eq, isPrefixOf_iff_ex]
      constructor
      · rintro ((h | h) | ⟨t, ht2⟩)
        · exact Or.inl h
        · exact Or.inr ⟨[], by simpa using h⟩
        · exact Or.inr ⟨t, by simpa using ht2⟩
      · rintro (h | ⟨x, rfl⟩)
        · exact Or.inl (Or.inl h)
        · exact Or.inr ⟨x, by simp⟩
    · rw [if_neg hd]
      simp only [Bool.or_eq_true, beq_iff_eq, isPrefixOf_iff_ex]
      constructor
      · rintro (h | ⟨t, ht2⟩)
        · exact Or.inl h
        · exact Or.inr ⟨t, by simpa using ht2⟩
      · rintro (h | ⟨x, rfl⟩)
        · exact Or.inl h
        · exact Or.inr ⟨x, by simp⟩

/-- A plain body (no '*', '?', '[', '\') compiles to the pattern whose
regex is the literal body with no wildcard flag. -/
theorem compilePattern_plain {body : List Char} {neg isDir isRoot : Bool}
    {pat : IgnorePattern}
    (h : compilePattern body neg isDir isRoot = some pat)
    (hp : ∀ c ∈ body, c ≠ '*' ∧ c ≠ '?' ∧ c ≠ '[' ∧ c ≠ '\\') :
    pat = { pattern := body, regexToks := body.map GlobElem.lit,
            isDirectory := isDir, negate := neg, hasWildcard := false,
            isRootRelative := isRoot } := by
  unfold compilePattern at h
  rw [show parseGlob body = some (body.map GlobElem.lit) from
    parseGlobF_plain body.length body (Nat.le_refl _) hp] at h
  simp only [Option.map_some', Option.some.injEq] at h
  have hw : (body.any fun c => c = '*' || c = '?') = false := by
    rw [List.any_eq_false]
    intro c hc
    have := hp c hc
    simp [this.1, this.2.1]
  rw [← h, hw]

/-- C2: a compiled wildcard-free, class-free, non-root-relative pattern
whose text contains '/' matches exactly the candidates equal to it,
extending it below a '/', reached through a leading `.../`, or occurring
as a whole `/`-bounded middle — never as an unbounded substring; the
single-pattern set `["src/test"]` ignores `src/test` and `foo/src/test`
but neither `mysrc/test` nor `src/test2`. -/
theorem claim_C2 :
    (∀ (body : List Char) (neg isDir : Bool) (pat : IgnorePattern)
        (f : List Char),
      compilePattern body neg isDir false = some pat →
      (∀ c ∈ body, c ≠ '*' ∧ c ≠ '?' ∧ c ≠ '[' ∧ c ≠ '\\') →
      '/' ∈ body →
      (matchPattern f pat = true ↔
        f = body ∨ (∃ x, f = body ++ '/' :: x) ∨
        (∃ y, f = y ++ '/' :: body) ∨
        (∃ y x, f = y ++ '/' :: body ++ '/' :: x))) ∧
    buildAndMatch ["src/test".data] "src/test".data = .ok true ∧
    buildAndMatch ["src/test".data] "foo/src/test".data = .ok true ∧
    buildAndMatch ["src/test".data] "mysrc/test".data = .ok false ∧
    buildAndMatch ["src/test".data] "src/test2".data = .ok false := by
  refine ⟨?_, by rfl, by rfl, by rfl, by rfl⟩
  intro body neg isDir pat f hc hp hs
  have hpat := compilePattern_plain hc hp
  subst hpat
  unfold matchPattern
  dsimp only
  rw [if_neg (by simp)]
  by_cases hre : reMatch (body.map GlobElem.lit) f = true
  · rw [if_pos hre]
    simp only [true_iff]
    exact Or.inl (reMatch_lits.mp hre)
  · rw [if_neg hre]
    by_cases hdir : (isDir && matchDirectoryPattern f
        { pattern := body, regexToks := body.map GlobElem.lit,
          isDirectory := isDir, negate := neg, hasWildcard := false,
          isRootRelative := false }) = true
    · rw [if_pos hdir]
      simp only [true_iff]
      rcases matchDirectoryPattern_iff.mp (Bool.and_elim_right hdir) with
        h | ⟨x, hx⟩
      · exact Or.inl h
      · exact Or.inr (Or.inl ⟨x, hx⟩)
    · rw [if_neg hdir, if_neg (by simp)]
      rw [if_pos (by simpa [List.contains] using hs)]
      exact matchPathSeparatorPattern_iff

/-- C2 witness: the theorem applied to the pattern `src/test` and the
candidate `foo/src/test`, which matches through the `/`-bounded suffix
form. -/
theorem claim_C2_witness :
    matchPattern "foo/src/test".data
      { pattern := "src/test".data,
        regexToks := "src/test".data.map GlobElem.lit,
        isDirectory := false, negate := false, hasWildcard := false,
        isRootRelative := false } = true :=
  (claim_C2.1 "src/test".data false false _ "foo/src/test".data
    (by rfl) (by decide) (by decide)).mpr
    (Or.inr (Or.inr (Or.inl ⟨"foo".data, rfl⟩)))

/-- C3: a compiled wildcard-free, class-free root-relative pattern `/P`
matches exactly `P` itself and `P/x`; a nested occurrence `a/P/x` can
only match when the whole candidate is again of the anchored form `P/t`;
the single-pattern set `["/build/"]` ignores `build/x.txt` but not
`nested/build/x.txt`. -/
theorem claim_C3 :
    (∀ (body : List Char) (neg isDir : Bool) (pat : IgnorePattern)
        (f : List Char),
      compilePattern body neg isDir true = some pat →
      (∀ c ∈ body, c ≠ '*' ∧ c ≠ '?' ∧ c ≠ '[' ∧ c ≠ '\\') →
      ((matchPattern f pat = true ↔
        f = body ∨ ∃ x, f = body ++ '/' :: x) ∧
       (∀ (a x : List Char),
          matchPattern (a ++ '/' :: body ++ '/' :: x) pat = true →
          ∃ t, a ++ '/' :: body ++ '/' :: x = body ++ '/' :: t))) ∧
    buildAndMatch ["/build/".data] "build/x.txt".data = .ok true ∧
    buildAndMatch ["/build/".data] "nested/build/x.txt".data = .ok false := by
  refine ⟨?_, by rfl, by rfl⟩
  intro body neg isDir pat f hc hp
  have hpat := compilePattern_plain hc hp
  subst hpat
  set pat0 : IgnorePattern :=
    { pattern := body, regexToks := body.map GlobElem.lit,
      isDirectory := isDir, negate := neg, hasWildcard := false,
      isRootRelative := true } with hpat0
  have hiff : ∀ g : List Char,
      matchPattern g pat0 = true ↔
        g = body ∨ ∃ x, g = body ++ '/' :: x := by
    intro g
    unfold matchPattern
    rw [if_pos (by rw [hpat0])]
    exact matchRootRelativePattern_lits_iff (by rw [hpat0]) (by rw [hpat0])
  refine ⟨hiff f, ?_⟩
  intro a x hm
  rcases (hiff (a ++ '/' :: body ++ '/' :: x)).mp hm with h | ⟨t, ht⟩
  · have : (a ++ '/' :: body ++ '/' :: x).length = body.length := by rw [h]
    simp [List.length_append] at this
    omega
  · exact ⟨t, ht⟩

/-- C3 witness: the theorem applied to the pattern `/build/` and the
candidate `build/x.txt`, matched through the anchored `P/x` form. -/
theorem claim_C3_witness :
    matchPattern "build/x.txt".data
      { pattern := "build".data,
        regexToks := "build".data.map GlobElem.lit,
        isDirectory := true, negate := false, hasWildcard := false,
        isRootRelative := true } = true :=
  ((claim_C3.1 "build".data false true _ "build/x.txt".data
    (by rfl) (by decide)).1).mpr (Or.inr ⟨"x.txt".data, rfl⟩)

/-! ### Segment matching for '/'-free patterns -/

theorem joinSlash_two_contains {s t : List Char} {ts : List (List Char)} :
    '/' ∈ joinSlash (s :: t :: ts) := by
  rw [joinSlash]
  exact List.mem_append.mpr (Or.inr (List.mem_cons_self _ _))

/-- If a pattern built only from literals, `*` and `?` fires in
`matchWildcardSubpaths`, it already matches a single segment. -/
theorem wildSub_segment {f : List Char} {pat : IgnorePattern}
    (hst : simpleToks pat.regexToks = true)
    (h : matchWildcardSubpaths f pat = true) :
    ∃ seg ∈ splitSlash f, reMatch pat.regexToks seg = true := by
  unfold matchWildcardSubpaths at h
  simp only [Bool.or_eq_true, List.any_eq_true, List.mem_range,
    Bool.and_eq_true, decide_eq_true_eq] at h
  rcases h with ⟨i, hi, hm⟩ | ⟨i, _, _, hm⟩
  · cases hd : (splitSlash f).drop i with
    | nil =>
      exfalso
      have : (splitSlash f).length - i = 0 := by
        rw [← List.length_drop, hd]
        rfl
      omega
    | cons s rest =>
      cases rest with
      | nil =>
        rw [hd] at hm
        rw [joinSlash] at hm
        refine ⟨s, ?_, hm⟩
        exact (List.drop_sublist (l := splitSlash f) (n := i)).mem
          (hd ▸ List.mem_cons_self _ _)
      | cons t ts =>
        exfalso
        rw [hd] at hm
        exact reMatch_simple_noSlash hst hm '/' joinSlash_two_contains rfl
  · exfalso
    exact reMatch_simple_noSlash hst hm '/'
      (List.mem_append.mpr (Or.inr (List.mem_cons_self _ _))) rfl

/-- Segments matching suffices for `matchPattern` on a non-root pattern
whose text contains no '/'. -/
theorem matchPattern_of_simple {f : List Char} {pat : IgnorePattern}
    (hroot : pat.isRootRelative = false)
    (hns : (pat.pattern.contains '/') = false)
    (h : matchSimplePattern f pat = true) : matchPattern f pat = true := by
  unfold matchPattern
  rw [if_neg (by rw [hroot]; exact Bool.false_ne_true)]
  by_cases h1 : reMatch pat.regexToks f = true
  · rw [if_pos h1]
  · rw [if_neg h1]
    by_cases h2 : (pat.isDirectory && matchDirectoryPattern f pat) = true
    · rw [if_pos h2]
    · rw [if_neg h2]
      by_cases h3 : (pat.hasWildcard && matchWildcardSubpaths f pat) = true
      · rw [if_pos h3]
      · rw [if_neg h3, if_neg (by rw [hns]; exact Bool.false_ne_true)]
        exact h

theorem compilePattern_some {body : List Char} {neg isDir isRoot : Bool}
    {pat : IgnorePattern}
    (h : compilePattern body neg isDir isRoot = some pat) :
    parseGlob body = some pat.regexToks ∧ pat.pattern = body ∧
    pat.isDirectory = isDir ∧ pat.negate = neg ∧
    pat.isRootRelative = isRoot := by
  unfold compilePattern at h
  cases hp : parseGlob body with
  | none => rw [hp] at h; simp at h
  | some t =>
    rw [hp] at h
    simp only [Option.map_some', Option.some.injEq] at h
    subst h
    exact ⟨rfl, rfl, rfl, rfl, rfl⟩

/-- C7 (amended): for a non-root-relative pattern whose text contains no
'/', a match on any '/'-delimited segment makes the pattern match the
path; the converse — the pattern matches only via some segment — holds
for patterns compiled to literals, `*` and `?` only (no `**`, no
character class). -/
theorem claim_C7 :
    (∀ (pat : IgnorePattern) (f : List Char),
      pat.isRootRelative = false → (pat.pattern.contains '/') = false →
      matchSimplePattern f pat = true → matchPattern f pat = true) ∧
    (∀ (body : List Char) (neg isDir : Bool) (pat : IgnorePattern)
        (f : List Char),
      compilePattern body neg isDir false = some pat →
      '\\' ∉ body →
      simpleToks pat.regexToks = true →
      (matchPattern f pat = true ↔
        ∃ seg ∈ splitSlash f, reMatch pat.regexToks seg = true)) := by
  refine ⟨fun pat f hr hn hs => matchPattern_of_simple hr hn hs, ?_⟩
  intro body neg isDir pat f hc hnb hst
  obtain ⟨hp, hpp, _, _, hpr⟩ := compilePattern_some hc
  have hns : '/' ∉ body :=
    parseGlobF_simple_noSlash body.length body pat.regexToks
      (Nat.le_refl _) hp hst
  have hbody : ∀ c ∈ body, c ≠ '/' := fun c hcm hceq => hns (hceq ▸ hcm)
  have hself : reMatch pat.regexToks body = true :=
    parseGlobF_selfMatch body.length body pat.regexToks
      (Nat.le_refl _) hp hst hnb
  have hcf : (pat.pattern.contains '/') = false := by
    rw [hpp]
    simpa [List.contains] using hns
  constructor
  · intro hm
    unfold matchPattern at hm
    rw [if_neg (by rw [hpr]; exact Bool.false_ne_true)] at hm
    by_cases h1 : reMatch pat.regexToks f = true
    · have hfns := reMatch_simple_noSlash hst h1
      refine ⟨f, ?_, h1⟩
      rw [splitSlash_noSlash hfns]
      exact List.mem_cons_self _ _
    · rw [if_neg h1] at hm
      by_cases h2 : (pat.isDirectory && matchDirectoryPattern f pat) = true
      · rcases matchDirectoryPattern_iff.mp (Bool.and_elim_right h2) with
          he | ⟨x, hx⟩
        · refine ⟨body, ?_, hself⟩
          rw [he, hpp, splitSlash_noSlash hbody]
          exact List.mem_cons_self _ _
        · refine ⟨body, ?_, hself⟩
          rw [hx, hpp, splitSlash_append_slash hbody]
          exact List.mem_cons_self _ _
      · rw [if_neg h2] at hm
        by_cases h3 : (pat.hasWildcard && matchWildcardSubpaths f pat) = true
        · exact wildSub_segment hst (Bool.and_elim_right h3)
        · rw [if_neg h3,
            if_neg (by rw [hcf]; exact Bool.false_ne_true)] at hm
          unfold matchSimplePattern at hm
          simpa using hm
  · rintro ⟨seg, hseg, hm⟩
    apply matchPattern_of_simple hpr hcf
    unfold matchSimplePattern
    exact List.any_eq_true.mpr ⟨seg, hseg, hm⟩

/-- C7 witness: the theorem applied to the '/'-free pattern `x` and the
candidate `a/x`, matched through its second segment. -/
theorem claim_C7_witness :
    matchPattern "a/x".data
      { pattern := "x".data, regexToks := ["x".data.head!].map GlobElem.lit,
        isDirectory := false, negate := false, hasWildcard := false,
        isRootRelative := false } = true :=
  (claim_C7.2 "x".data false false _ "a/x".data (by rfl) (by decide)
    (by decide)).mpr ⟨"x".data, by decide, by decide⟩

/-- The pattern `a**b` as compiled by `buildIgnorePatterns`: its `**`
becomes the regex fragment `.*`, which crosses '/'. -/
def starStarPat : IgnorePattern :=
  { pattern := "a**b".data,
    regexToks := [GlobElem.lit 'a', GlobElem.anyseq, GlobElem.lit 'b'],
    isDirectory := false, negate := false, hasWildcard := true,
    isRootRelative := false }

/-- C7 counterexample: the '/'-free wildcard pattern `a**b` matches the
path `ax/yb` through the whole-path regex (its `.*` crosses '/'), yet no
'/'-delimited segment of `ax/yb` matches — so the claimed equivalence
fails for '/'-free patterns containing `**`. -/
theorem claim_C7_cex :
    buildIgnorePatterns ["a**b".data] = .ok [starStarPat] ∧
    matchPattern "ax/yb".data starStarPat = true ∧
    ((splitSlash "ax/yb".data).all fun seg =>
      !reMatch starStarPat.regexToks seg) = true :=
  ⟨by rfl, by decide, by decide⟩

/-! ### Hierarchical override -/

theorem repoStep_silent {ps : List IgnorePattern} {mp : List Char}
    (h : (MatchesWithTracking ps mp).2 = false) (m : Bool) :
    repoStep ps mp m = m := by
  unfold repoStep
  simp only []
  rw [h]
  rfl

theorem repoStep_firing {ps : List IgnorePattern} {mp : List Char}
    (h : (MatchesWithTracking ps mp).2 = true) (m : Bool) :
    repoStep ps mp m = (MatchesWithTracking ps mp).1 := by
  unfold repoStep
  simp only []
  rw [h]
  rfl

/-- Build the matchers of a repository from per-directory line lists,
`none` when any of them fails to compile. -/
def repoOfLists (root : List Char)
    (ms : List (List Char × List (List Char))) : Option RepositoryMatcher :=
  let built := ms.map fun e =>
    (buildIgnorePatterns e.2).toOption.map fun ps => (e.1, ps)
  if built.all Option.isSome then some ⟨root, built.filterMap id⟩ else none

/-- C4: in the hierarchical loop of `RepositoryMatcher.Matches`, a level
overwrites the running decision exactly when one of its patterns matched
(the tracking flag); a silent level — including one holding only
non-firing negation patterns — drops out of the fold entirely; in the
two-level scenario (root `*.txt`, nested `!important.txt`),
`special/file.txt` stays ignored through the silent nested level while
`special/important.txt` is re-included by its firing negation. -/
theorem claim_C4 :
    (∀ (ps : List IgnorePattern) (mp : List Char) (m : Bool),
      (MatchesWithTracking ps mp).2 = false → repoStep ps mp m = m) ∧
    (∀ (ps : List IgnorePattern) (mp : List Char) (m : Bool),
      (MatchesWithTracking ps mp).2 = true →
      repoStep ps mp m = (MatchesWithTracking ps mp).1) ∧
    (∀ (pre post : List (List IgnorePattern × List Char))
        (l : List IgnorePattern × List Char),
      (MatchesWithTracking l.1 l.2).2 = false →
      repoFold (pre ++ l :: post) = repoFold (pre ++ post)) ∧
    (repoOfLists "/repo".data
        [("/repo".data, ["*.txt".data]),
         ("/repo/special".data, ["!important.txt".data])]).map
      (fun rm => repoMatches rm "special/file.txt".data) =
      some (.ok true) ∧
    (repoOfLists "/repo".data
        [("/repo".data, ["*.txt".data]),
         ("/repo/special".data, ["!important.txt".data])]).map
      (fun rm => repoMatches rm "special/important.txt".data) =
      some (.ok false) := by
  refine ⟨fun ps mp m h => repoStep_silent h m,
    fun ps mp m h => repoStep_firing h m, ?_, by rfl, by rfl⟩
  intro pre post l h
  unfold repoFold
  rw [List.foldl_append, List.foldl_cons, List.foldl_append]
  congr 1
  exact repoStep_silent h _

/-- C4 witness: a level holding only the non-firing negation pattern
`!important.txt` leaves the previous decision untouched for the path
`file.txt`. -/
theorem claim_C4_witness :
    repoStep
      [{ pattern := "important.txt".data,
         regexToks := "important.txt".data.map GlobElem.lit,
         isDirectory := false, negate := true, hasWildcard := false,
         isRootRelative := false }] "file.txt".data true = true :=
  claim_C4.1
    [{ pattern := "important.txt".data,
       regexToks := "important.txt".data.map GlobElem.lit,
       isDirectory := false, negate := true, hasWildcard := false,
       isRootRelative := false }] "file.txt".data true (by decide)

/-- C6: evaluating `RepositoryMatcher.Matches` at the failing input — the
indexed root `/root` and the query `/root-extra` — returns a decision
with no error, although `/root-extra` is neither the root itself nor
below `/root/`: the `strings.HasPrefix(absPath, rm.rootDir)` scope check
accepts any sibling whose name extends the root's name.  A path that
shares no prefix with the root, such as `/tmp/outside.log`, is rejected
as the claim demands. -/
theorem claim_C6 :
    repoMatches ⟨"/root".data, []⟩ "/root-extra".data = .ok false ∧
    ("/root".data ++ ['/']).isPrefixOf (clean "/root-extra".data) = false ∧
    (clean "/root-extra".data == "/root".data) = false ∧
    repoMatches ⟨"/root".data, []⟩ "/tmp/outside.log".data = .error () :=
  ⟨by rfl, by decide, by decide, by rfl⟩

end Dotignore
